import Mathlib

/-!
# Verification of parts of embree: node allocation, spin barriers, instance intersectors

Shallow embedding of

* `BVH4iBuilder::allocNode` (`kernels/xeonphi/bvh4i/bvh4i_builder.h`),
* `BarrierActive` and `BarrierActiveAutoReset` (`common/sys/barrier.h`),
* `FastInstanceIntersector1::intersect` and `FastInstanceIntersector1M::intersect`
  (`kernels/xeon/geometry/instance_intersector1.cpp`),
* the recursive build of `BVH4iBuilder`, of which the header holds declarations
  only and which is therefore modelled from the specification,

followed by the properties proved about them. Machine integers are natural
numbers or integers with explicit reduction modulo the word size.
-/

/-! # Common modelling devices

Threads are interleaved at the granularity of single atomic operations: a
transition function `next s i` lets thread `i` perform its next atomic
operation in state `s`, and yields `none` when thread `i` cannot advance its
program position there (a spin-loop test that fails, or no such thread). -/

namespace embree

/-- The operation `fetch_add(arg)` (also `++`) on a `std::atomic<size_t>`:
addition modulo 2^64 of the argument converted to `size_t`; the stored value
afterwards. -/
def fetch_add (cntr : Nat) (arg : Int) : Nat :=
  (((cntr : Int) + arg) % (2 ^ 64 : Int)).toNat

/-- States reachable from `s0` by letting, at every step, some thread perform
its next atomic operation. -/
inductive Reach {σ : Type} (next : σ → Nat → Option σ) (s0 : σ) : σ → Prop where
  | start : Reach next s0 s0
  | step (s s1 : σ) (i : Nat) : Reach next s0 s → next s i = some s1 → Reach next s0 s1

/-- Run a schedule: the listed threads perform one atomic operation each, in
order; `none` when a scheduled thread cannot advance. -/
def run {σ : Type} (next : σ → Nat → Option σ) (s : σ) : List Nat → Option σ
  | [] => some s
  | i :: rest =>
    match next s i with
    | none => none
    | some s1 => run next s1 rest

end embree

/-! # Node allocator of `BVH4iBuilder` (`bvh4i_builder.h`, lines 159-167) -/

namespace embree
namespace BVH4iBuilder

/-- Value of a C `int` stored into a 32-bit unsigned word. -/
def toU32 (x : Int) : Nat := (x % (2 ^ 32 : Int)).toNat

/-- Fields of the builder read by `allocNode`: the 32-bit atomic cursor
`atomicID` and the reserved capacity `numAllocatedNodes`. -/
structure AllocState where
  atomicID : Nat
  numAllocatedNodes : Nat
  deriving DecidableEq

/-- Result of one call of `allocNode`: either the `FATAL` path is taken or an
index is returned. -/
inductive AllocResult where
  | fatal (msg : String)
  | ret (currentIndex : Nat)
  deriving DecidableEq

/-- The call `atomicID.add(size)` on the 32-bit counter (its class is declared
in another header; `add` is an atomic fetch-and-add): the first component is
the value before the addition, the second the stored value afterwards. -/
def atomicAdd (cntr : Nat) (size : Int) : Nat × Nat :=
  (cntr, toU32 ((cntr : Int) + size))

/-- The function `allocNode(int size)`: the cursor is advanced first, then the
old value is tested against `numAllocatedNodes`. -/
def allocNode (s : AllocState) (size : Int) : AllocResult × AllocState :=
  let r := atomicAdd s.atomicID size
  let currentIndex := r.1
  let s1 : AllocState := { s with atomicID := r.2 }
  if currentIndex ≥ s.numAllocatedNodes then
    (AllocResult.fatal "not enough nodes allocated", s1)
  else
    (AllocResult.ret currentIndex, s1)

/-- A sequence of `allocNode` calls, each one atomic step: the list of results
in call order. -/
def allocResults (s : AllocState) : List Int → List AllocResult
  | [] => []
  | size :: rest => (allocNode s size).1 :: allocResults (allocNode s size).2 rest

/-- Builder state after a sequence of `allocNode` calls. -/
def allocFinal (s : AllocState) : List Int → AllocState
  | [] => s
  | size :: rest => allocFinal (allocNode s size).2 rest

end BVH4iBuilder
end embree

/-! # Instance intersectors (`instance_intersector1.cpp`)

The scalar type `F` (float), the vector type `V` (`Vec3fa`) and the transform
type `A` (`AffineSpace3fa`) are only copied and passed on by the code embedded
here, so they are kept abstract. -/

namespace embree
namespace isa

/-- The fields of `Ray` that `instance_intersector1.cpp` reads or writes. -/
structure Ray (F V : Type) where
  org : V
  dir : V
  tnear : F
  tfar : F
  time : F
  mask : Int
  Ng : V
  u : F
  v : F
  geomID : Int
  primID : Int
  instID : Int

/-- The members of `Instance` used by the intersectors. `getWorld2Local0` is
the overload `getWorld2Local()` without a time argument. -/
structure Instance (F A : Type) where
  id : Int
  numTimeSteps : Nat
  getWorld2LocalSpecial : F → A
  getWorld2Local0 : A
  getWorld2Local : F → A

namespace FastInstanceIntersector1

/-- The function `FastInstanceIntersector1::intersect` up to the nested call
(lines 38-46): the ray that is handed to `instance->object->intersect`. -/
def intersectEnter {F V A : Type} (xfmPoint xfmVector : A → V → V)
    (inst : Instance F A) (ray : Ray F V) : Ray F V :=
  let world2local := inst.getWorld2LocalSpecial ray.time
  let ray_org := ray.org
  let ray_dir := ray.dir
  { ray with
    org := xfmPoint world2local ray_org
    dir := xfmVector world2local ray_dir
    geomID := -1
    instID := inst.id }

/-- The function `FastInstanceIntersector1::intersect` (lines 36-54).
`objectIntersect` is the nested call `instance->object->intersect`, an
arbitrary update of the ray. -/
def intersect {F V A : Type} (xfmPoint xfmVector : A → V → V)
    (objectIntersect : Ray F V → Ray F V)
    (inst : Instance F A) (ray : Ray F V) : Ray F V :=
  let ray_org := ray.org
  let ray_dir := ray.dir
  let ray_geomID := ray.geomID
  let ray_instID := ray.instID
  let ray4 := intersectEnter xfmPoint xfmVector inst ray
  let ray5 := objectIntersect ray4
  let ray6 := { ray5 with org := ray_org, dir := ray_dir }
  if ray6.geomID = -1 then
    { ray6 with geomID := ray_geomID, instID := ray_instID }
  else
    ray6

end FastInstanceIntersector1

/-- Store `x` into slot `i` of an array held as a function of the index. -/
def store {α : Type} (a : Nat → α) (i : Nat) (x : α) : Nat → α :=
  fun j => if j = i then x else a j

namespace FastInstanceIntersector1M

/-- Body of the first loop of `FastInstanceIntersector1M::intersect` (lines
79-89), on the loop state `(world2local, lrays)`. -/
def setupBody {F V A : Type} (xfmPoint xfmVector : A → V → V)
    (inst : Instance F A) (rays : Nat → Ray F V)
    (st : A × (Nat → Ray F V)) (i : Nat) : A × (Nat → Ray F V) :=
  let world2local :=
    if inst.numTimeSteps ≠ 1 then inst.getWorld2Local (rays i).time else st.1
  (world2local, store st.2 i
    { st.2 i with
      org := xfmPoint world2local (rays i).org
      dir := xfmVector world2local (rays i).dir
      tnear := (rays i).tnear
      tfar := (rays i).tfar
      time := (rays i).time
      mask := (rays i).mask
      geomID := -1
      instID := inst.id })

/-- The first loop (lines 77-90): `lrays0` is the uninitialised content of the
local array `lrays`; the result is the array handed to `rtcIntersect1M`. -/
def setupRays {F V A : Type} (xfmPoint xfmVector : A → V → V)
    (inst : Instance F A) (rays lrays0 : Nat → Ray F V) (M : Nat) : Nat → Ray F V :=
  ((List.range M).foldl (setupBody xfmPoint xfmVector inst rays)
    (inst.getWorld2Local0, lrays0)).2

/-- Body of the second loop (lines 96-103): the write-back of one hit. -/
def writeBackBody {F V : Type} (lrays : Nat → Ray F V)
    (rays : Nat → Ray F V) (i : Nat) : Nat → Ray F V :=
  if (lrays i).geomID = -1 then rays
  else
    store rays i
      { rays i with
        instID := (lrays i).instID
        geomID := (lrays i).geomID
        primID := (lrays i).primID
        u := (lrays i).u
        v := (lrays i).v
        tfar := (lrays i).tfar
        Ng := (lrays i).Ng }

/-- The function `FastInstanceIntersector1M::intersect` (lines 71-105). The
array `rays` of `M` pointers to distinct rays is held as the function from the
index to the ray pointed to; `rtcIntersect1M` is the nested call, an arbitrary
update of the first `M` local rays; the result is `none` when the assertion
`M < MAX_INTERNAL_STREAM_SIZE` fails. -/
def intersect {F V A : Type} (MAX_INTERNAL_STREAM_SIZE : Nat)
    (xfmPoint xfmVector : A → V → V)
    (rtcIntersect1M : (Nat → Ray F V) → Nat → (Nat → Ray F V))
    (inst : Instance F A) (rays lrays0 : Nat → Ray F V) (M : Nat) :
    Option (Nat → Ray F V) :=
  if M < MAX_INTERNAL_STREAM_SIZE then
    let lrays := setupRays xfmPoint xfmVector inst rays lrays0 M
    let lrays := rtcIntersect1M lrays M
    some ((List.range M).foldl (writeBackBody lrays) rays)
  else
    none

/-- A sample transform application on integer stand-ins. -/
def sampleXfm : Int → Int → Int := fun a v => a + v

/-- A sample instance with integer stand-ins for scalars and transforms. -/
def sampleInstance : Instance Int Int := ⟨7, 1, fun t => t, 0, fun t => t⟩

/-- Two sample rays, without a hit so far. -/
def sampleRays : Nat → Ray Int Int :=
  fun i => ⟨10 + i, 20 + i, 0, 100, 0, 255, 0, 0, 0, -1, -1, -1⟩

/-- A sample nested call: the first local ray is hit (geometry 3, primitive
5, distance 42), the others are left as they are. -/
def sampleNested : (Nat → Ray Int Int) → Nat → (Nat → Ray Int Int) :=
  fun lrays _ i =>
    if i = 0 then { lrays i with geomID := 3, primID := 5, tfar := 42, u := 1, v := 2, Ng := 9 }
    else lrays i

end FastInstanceIntersector1M
end isa
end embree

/-! # `BarrierActiveAutoReset` (`barrier.h`, lines 65-87) -/

namespace embree
namespace BarrierActiveAutoReset

/-- Program positions inside `wait`: the next atomic operation of a thread. -/
inductive Loc where
  /-- Line 74, `cntr0.fetch_add(1)`; also the position between two calls. -/
  | add0
  /-- Line 75, `while (cntr0 != threadCount)`. -/
  | full0
  /-- Line 76, `cntr1.fetch_add(1)`. -/
  | add1
  /-- Line 77, `while (cntr1 != threadCount)`. -/
  | full1
  /-- Line 78, `cntr0.fetch_add(-1)`. -/
  | sub0
  /-- Line 79, `while (cntr0 != 0)`. -/
  | zero0
  /-- Line 80, `cntr1.fetch_add(-1)`. -/
  | sub1
  /-- Line 81, `while (cntr1 != 0)`; leaving this loop returns from `wait`. -/
  | zero1
  deriving DecidableEq

/-- A thread: the number of calls of `wait` it has returned from, and its
position in the current call. -/
structure Thread where
  round : Nat
  loc : Loc
  deriving DecidableEq

/-- The barrier together with the threads using it. -/
structure State where
  cntr0 : Nat
  cntr1 : Nat
  threads : List Thread
  deriving DecidableEq

/-- The constructor (`cntr0(0), cntr1(0)`) with `N` threads about to call
`wait` for the first time. -/
def init (N : Nat) : State :=
  ⟨0, 0, List.replicate N ⟨0, Loc.add0⟩⟩

/-- One atomic operation of thread `i` inside `wait(threadCount)`; a thread
that has returned calls `wait` again. A failing spin test gives `none`. -/
def step (threadCount : Nat) (s : State) (i : Nat) : Option State :=
  match s.threads[i]? with
  | none => none
  | some t =>
    match t.loc with
    | Loc.add0 =>
      some ⟨fetch_add s.cntr0 1, s.cntr1, s.threads.set i ⟨t.round, Loc.full0⟩⟩
    | Loc.full0 =>
      if s.cntr0 ≠ threadCount then none
      else some ⟨s.cntr0, s.cntr1, s.threads.set i ⟨t.round, Loc.add1⟩⟩
    | Loc.add1 =>
      some ⟨s.cntr0, fetch_add s.cntr1 1, s.threads.set i ⟨t.round, Loc.full1⟩⟩
    | Loc.full1 =>
      if s.cntr1 ≠ threadCount then none
      else some ⟨s.cntr0, s.cntr1, s.threads.set i ⟨t.round, Loc.sub0⟩⟩
    | Loc.sub0 =>
      some ⟨fetch_add s.cntr0 (-1), s.cntr1, s.threads.set i ⟨t.round, Loc.zero0⟩⟩
    | Loc.zero0 =>
      if s.cntr0 ≠ 0 then none
      else some ⟨s.cntr0, s.cntr1, s.threads.set i ⟨t.round, Loc.sub1⟩⟩
    | Loc.sub1 =>
      some ⟨s.cntr0, fetch_add s.cntr1 (-1), s.threads.set i ⟨t.round, Loc.zero1⟩⟩
    | Loc.zero1 =>
      if s.cntr1 ≠ 0 then none
      else some ⟨s.cntr0, s.cntr1, s.threads.set i ⟨t.round + 1, Loc.add0⟩⟩

/-- The same with every thread calling `wait` once only: a thread that has
returned performs no further operation. -/
def stepOnce (threadCount : Nat) (s : State) (i : Nat) : Option State :=
  match s.threads[i]? with
  | none => none
  | some t => if t.round = 0 then step threadCount s i else none

/-- Thread `t` has returned from its `k`-th call of `wait`. -/
def returned (t : Thread) (k : Nat) : Prop := k ≤ t.round

/-- Thread `t` has entered its `k`-th call of `wait`, that is, it has performed
the first increment of `cntr0` of that call. -/
def entered (t : Thread) (k : Nat) : Prop :=
  k ≤ t.round ∨ (t.round + 1 = k ∧ t.loc ≠ Loc.add0)

/-- Position number: operations performed so far in the current call. -/
def Loc.idx : Loc → Nat
  | Loc.add0 => 0
  | Loc.full0 => 1
  | Loc.add1 => 2
  | Loc.full1 => 3
  | Loc.sub0 => 4
  | Loc.zero0 => 5
  | Loc.sub1 => 6
  | Loc.zero1 => 7

/-- Total number of operations a thread has performed. -/
def progress (t : Thread) : Nat := 8 * t.round + t.loc.idx

/-- Contribution of a thread to `cntr0`: 1 between lines 74 and 78. -/
def in0 (t : Thread) : Nat :=
  match t.loc with
  | Loc.full0 | Loc.add1 | Loc.full1 | Loc.sub0 => 1
  | _ => 0

/-- Contribution of a thread to `cntr1`: 1 between lines 76 and 80. -/
def in1 (t : Thread) : Nat :=
  match t.loc with
  | Loc.full1 | Loc.sub0 | Loc.zero0 | Loc.sub1 => 1
  | _ => 0

/-- The invariant of the barrier used by `N` threads: each counter is the
number of threads between its increment and its decrement, and no thread is
more than one phase ahead of another. -/
def Inv (N : Nat) (s : State) : Prop :=
  s.threads.length = N ∧
  s.cntr0 = (s.threads.map in0).sum ∧
  s.cntr1 = (s.threads.map in1).sum ∧
  ∀ a ∈ s.threads, ∀ b ∈ s.threads,
    progress a ≤ progress b + 2 ∧ (progress a % 2 = 0 → progress a ≤ progress b + 1)

end BarrierActiveAutoReset
end embree

/-! # `BarrierActive` (`barrier.h`, lines 43-63) -/

namespace embree
namespace BarrierActive

/-- Program positions inside `wait`: the next atomic operation of a thread. -/
inductive Loc where
  /-- Line 56, `cntr++`; also the position outside a call. -/
  | incr
  /-- Line 57, `while (cntr.load() != numThreads)`; leaving this loop returns
  from `wait`. -/
  | spin
  deriving DecidableEq

/-- A thread: the number of calls of `wait` it has returned from, and its
position in the current call. -/
structure Thread where
  round : Nat
  loc : Loc
  deriving DecidableEq

/-- The barrier together with the threads using it. -/
structure State where
  cntr : Nat
  threads : List Thread
  deriving DecidableEq

/-- The constructor (`cntr(0)`) with `T` threads about to call `wait`. -/
def init (T : Nat) : State :=
  ⟨0, List.replicate T ⟨0, Loc.incr⟩⟩

/-- The function `reset()`: `cntr.store(0)`. -/
def reset (s : State) : State :=
  { s with cntr := 0 }

/-- One atomic operation of thread `i` inside `wait(numThreads)`; a thread
that has returned calls `wait` again. A failing spin test gives `none`. -/
def step (numThreads : Nat) (s : State) (i : Nat) : Option State :=
  match s.threads[i]? with
  | none => none
  | some t =>
    match t.loc with
    | Loc.incr =>
      some ⟨fetch_add s.cntr 1, s.threads.set i ⟨t.round, Loc.spin⟩⟩
    | Loc.spin =>
      if s.cntr ≠ numThreads then none
      else some ⟨s.cntr, s.threads.set i ⟨t.round + 1, Loc.incr⟩⟩

/-- The same with every thread calling `wait` once only: a thread that has
returned performs no further operation. -/
def stepOnce (numThreads : Nat) (s : State) (i : Nat) : Option State :=
  match s.threads[i]? with
  | none => none
  | some t => if t.round = 0 then step numThreads s i else none

/-- 1 for a thread that has performed the increment of its first call. -/
def arrived (t : Thread) : Nat :=
  if t.loc = Loc.spin ∨ 1 ≤ t.round then 1 else 0

/-- Number of threads that have performed the increment of their first call. -/
def numArrived (s : State) : Nat :=
  (s.threads.map arrived).sum

/-- 1 for a thread inside a call of `wait`, at the spin loop. -/
def spinning (t : Thread) : Nat :=
  if t.loc = Loc.spin then 1 else 0

/-- Number of threads inside a call of `wait`. -/
def numSpinning (s : State) : Nat :=
  (s.threads.map spinning).sum

/-- A thread as it is after returning from one more call of `wait`. -/
def Thread.done (t : Thread) : Thread :=
  ⟨t.round + 1, Loc.incr⟩

/-- One round after the state `s0`: every thread performs one call of `wait`
more than it had returned from in `s0`; a thread that has returned from that
call performs no further operation. -/
def stepRound (numThreads : Nat) (s0 s : State) (i : Nat) : Option State :=
  match s0.threads[i]?, s.threads[i]? with
  | some t0, some t => if t.round = t0.round then step numThreads s i else none
  | _, _ => none

/-- Operations performed in the round by a thread that was `p.1` when the round
started and is `p.2` now: 0 before its increment, 1 while it spins, 2 once it
has returned. -/
def roundPhase (p : Thread × Thread) : Nat :=
  if p.2 = p.1 then 0 else if p.2.loc = Loc.spin then 1 else 2

/-- 1 for a thread that has performed its increment in the round. -/
def roundArrived (p : Thread × Thread) : Nat :=
  if p.2 = p.1 then 0 else 1

/-- Number of operations performed in the round started from `s0`. -/
def roundOps (s0 s : State) : Nat :=
  ((s0.threads.zip s.threads).map roundPhase).sum

/-- Invariant of a round started from `s0` by `reset()`: the counter is the
number of threads that have incremented it in the round, and every thread is
before its increment, spinning, or has returned from its call. -/
def RoundInv (s0 s : State) : Prop :=
  s.threads.length = s0.threads.length ∧
  s.cntr = ((s0.threads.zip s.threads).map roundArrived).sum ∧
  ∀ p ∈ s0.threads.zip s.threads,
    p.2 = p.1 ∨ p.2 = ⟨p.1.round, Loc.spin⟩ ∨ p.2 = p.1.done

end BarrierActive
end embree

/-! # Recursive build of `BVH4iBuilder`

The header `bvh4i_builder.h` only declares `build`, `recurse`, `recurseSAH`,
`split`, `splitSequential`, `splitParallelGlobal`, `splitParallelLocal` and
`createLeaf`; their bodies live in files that are not embedded here. The
definitions of this section follow the specification (sections 3 and 4.3). A
primitive reference is represented by its primitive id; bounding boxes and the
SAH cost only decide how primitives are classified, and that decision is a
parameter. -/

namespace embree
namespace BVH4iBuilder

/-- Modelled from the spec: the three split strategies of section 4.3
(bodies of `splitSequential`, `splitParallelLocal`, `splitParallelGlobal` are
missing). -/
inductive SplitMode where
  | sequential
  | localParallel
  | globalParallel
  deriving DecidableEq

/-- Modelled from the spec: the outcome of a successful split attempt (body of
`split` is missing): the left/right classification of primitives by the chosen
axis and bin boundary, the strategy used, and the order in which the
participating threads were scheduled for their fetch-and-add on the left and
on the right write cursor. -/
structure SplitPlan where
  goLeft : Nat → Bool
  mode : SplitMode
  scheduleL : List Nat
  scheduleR : List Nat

/-- Modelled from the spec: the configuration constants of section 6 used by
the recursion (leaf threshold, maximum depth, hardware threads per core). -/
structure BuildConfig where
  leafThreshold : Nat
  maxDepth : Nat
  threadsPerCore : Nat

/-- Modelled from the spec: a leaf references the primitive range
`[start, stop)` of its build record (body of `createLeaf` is missing). -/
structure Leaf where
  start : Nat
  stop : Nat
  deriving DecidableEq

/-- Modelled from the spec: number of threads taking part in a split: one for
the sequential strategy, the hardware threads of one core for the core-local
strategy, all threads for the machine-global strategy. -/
def participants (cfg : BuildConfig) (threadCount : Nat) : SplitMode → Nat
  | SplitMode.sequential => 1
  | SplitMode.localParallel => cfg.threadsPerCore
  | SplitMode.globalParallel => threadCount

/-- Modelled from the spec: the disjoint contiguous slice of the range that
participant `t` of `T` scans (section 4.3, strategy 2). -/
def slice (range : List Nat) (T t : Nat) : List Nat :=
  (range.drop (t * range.length / T)).take
    ((t + 1) * range.length / T - t * range.length / T)

/-- Modelled from the spec: the order in which the `T` participants obtain
their destination offset from a shared write cursor. Each participant
performs exactly one fetch-and-add per cursor: the first time it is scheduled;
participants the schedule does not mention follow in index order. -/
def claimOrder (T : Nat) (schedule : List Nat) : List Nat :=
  (schedule.filter (fun t => decide (t < T))).dedup ++
    (List.range T).filter (fun t => decide (t ∉ schedule))

/-- Modelled from the spec: partitioning of a record's range (section 4.3,
strategies 1 to 3): every participant classifies the primitives of its slice
in scan order and copies those going left (right) into the contiguous region
it claimed on the left (right) write cursor; the regions follow each other in
claim order. The result is the content of the left and of the right
sub-range. -/
def partitionRange (goLeft : Nat → Bool) (range : List Nat) (T : Nat)
    (scheduleL scheduleR : List Nat) : List Nat × List Nat :=
  ((claimOrder T scheduleL).flatMap (fun t => (slice range T t).filter goLeft),
   (claimOrder T scheduleR).flatMap (fun t => (slice range T t).filter (fun p => !goLeft p)))

/-- Modelled from the spec: the split step of `recurse` (section 4.3): on
success the range is partitioned by the chosen split; on failure the range is
bisected by primitive count. -/
def splitRange (cfg : BuildConfig) (threadCount : Nat) (plan : Option SplitPlan)
    (range : List Nat) : List Nat × List Nat :=
  match plan with
  | some p =>
    partitionRange p.goLeft range (participants cfg threadCount p.mode) p.scheduleL p.scheduleR
  | none => (range.take (range.length / 2), range.drop (range.length / 2))

/-- Modelled from the spec: `recurse` (section 4.3; bodies of `recurse` and
`recurseSAH` are missing). `remaining` is the maximum depth minus the depth of
the record, `start` the first index of the record's range and `range` the
primitive ids stored there; `split` is the split attempt (depth, start, range
content). The result is the list of leaves from left to right and the final
content of the range. -/
def recurse (cfg : BuildConfig) (threadCount : Nat)
    (split : Nat → Nat → List Nat → Option SplitPlan) :
    Nat → Nat → List Nat → List Leaf × List Nat
  | 0, start, range => ([⟨start, start + range.length⟩], range)
  | remaining + 1, start, range =>
    if range.length ≤ cfg.leafThreshold then
      ([⟨start, start + range.length⟩], range)
    else
      let parts := splitRange cfg threadCount
        (split (cfg.maxDepth - (remaining + 1)) start range) range
      let left := recurse cfg threadCount split remaining start parts.1
      let right := recurse cfg threadCount split remaining (start + parts.1.length) parts.2
      (left.1 ++ right.1, left.2 ++ right.2)

/-- Modelled from the spec: `build` (section 4.3; body missing): the root
record covers all primitive references, at depth 0. -/
def build (cfg : BuildConfig) (threadCount : Nat)
    (split : Nat → Nat → List Nat → Option SplitPlan) (prims : List Nat) :
    List Leaf × List Nat :=
  recurse cfg threadCount split cfg.maxDepth 0 prims

/-- The leaves cover `[a, b)` from left to right without gap or overlap. -/
def tiles : List Leaf → Nat → Nat → Prop
  | [], a, b => a = b
  | l :: rest, a, b => l.start = a ∧ l.start ≤ l.stop ∧ tiles rest l.stop b

/-- The primitive ids a leaf refers to in the primitive array. -/
def leafPrims (prims : List Nat) (l : Leaf) : List Nat :=
  (prims.drop l.start).take (l.stop - l.start)

end BVH4iBuilder
end embree

namespace embree
namespace BVH4iBuilder

/-- A sample configuration: leaves of at most 2 primitives, depth at most 8,
4 hardware threads per core. -/
def sampleConfig : BuildConfig := ⟨2, 8, 4⟩

/-- A sample split attempt: the root is split machine-globally by parity of the
primitive id, with the second thread claiming first; at depth 1 the split is
core-local by comparison with 4; deeper records find no split. -/
def sampleSplit : Nat → Nat → List Nat → Option SplitPlan
  | 0, _, _ => some ⟨fun p => p % 2 == 0, SplitMode.globalParallel, [1, 0], [1]⟩
  | 1, _, _ => some ⟨fun p => decide (p < 4), SplitMode.localParallel, [3, 2], []⟩
  | _, _, _ => none

end BVH4iBuilder
end embree

/-! # Theorems -/

namespace embree

theorem fetch_add_one (c : Nat) (h : c + 1 < 2 ^ 64) : fetch_add c 1 = c + 1 := by
  unfold fetch_add
  omega

theorem fetch_add_neg_one (c : Nat) (h0 : 1 ≤ c) (h : c < 2 ^ 64) :
    fetch_add c (-1) = c - 1 := by
  unfold fetch_add
  omega

theorem reach_trans {σ : Type} (next : σ → Nat → Option σ) (s0 s1 s2 : σ)
    (h1 : Reach next s0 s1) (h2 : Reach next s1 s2) : Reach next s0 s2 := by
  induction h2 with
  | start => exact h1
  | step s s' i _ hstep ih => exact Reach.step s s' i ih hstep

theorem reach_of_run {σ : Type} (next : σ → Nat → Option σ) (sched : List Nat) (s0 s : σ)
    (h : run next s0 sched = some s) : Reach next s0 s := by
  induction sched generalizing s0 with
  | nil =>
    simp only [run, Option.some.injEq] at h
    subst h
    exact Reach.start
  | cons i rest ih =>
    simp only [run] at h
    cases hn : next s0 i with
    | none => simp [hn] at h
    | some s1 =>
      simp only [hn] at h
      exact reach_trans next s0 s1 s (Reach.step s0 s1 i Reach.start hn) (ih s1 h)

theorem run_append {σ : Type} (next : σ → Nat → Option σ) (a b : List Nat) (s0 s1 : σ)
    (h : run next s0 a = some s1) : run next s0 (a ++ b) = run next s1 b := by
  induction a generalizing s0 with
  | nil =>
    simp only [run, Option.some.injEq] at h
    subst h
    rfl
  | cons i rest ih =>
    simp only [run, List.cons_append] at h ⊢
    cases hn : next s0 i with
    | none => simp [hn] at h
    | some s2 =>
      simp only [hn] at h ⊢
      exact ih s2 h

/-- Replacing entry `i` of a list changes the sum of a per-entry quantity by
the difference between the new and the old entry. -/
theorem sum_map_set {α : Type} (f : α → Nat) (l : List α) (i : Nat) (t x : α)
    (h : l[i]? = some t) : ((l.set i x).map f).sum + f t = (l.map f).sum + f x := by
  induction l generalizing i with
  | nil => simp at h
  | cons a rest ih =>
    cases i with
    | zero =>
      simp only [List.getElem?_cons_zero, Option.some.injEq] at h
      subst h
      simp only [List.set_cons_zero, List.map_cons, List.sum_cons]
      omega
    | succ i =>
      simp only [List.getElem?_cons_succ] at h
      have := ih i h
      simp only [List.set_cons_succ, List.map_cons, List.sum_cons]
      omega

theorem sum_map_le_length {α : Type} (f : α → Nat) (hf : ∀ t, f t ≤ 1) (l : List α) :
    (l.map f).sum ≤ l.length := by
  induction l with
  | nil => simp
  | cons a rest ih =>
    have := hf a
    simp only [List.map_cons, List.sum_cons, List.length_cons]
    omega

theorem sum_map_eq_length {α : Type} (f : α → Nat) (hf : ∀ t, f t ≤ 1) (l : List α) :
    (l.map f).sum = l.length ↔ ∀ t ∈ l, f t = 1 := by
  induction l with
  | nil => simp
  | cons a rest ih =>
    have h1 := hf a
    have h2 := sum_map_le_length f hf rest
    simp only [List.map_cons, List.sum_cons, List.length_cons, List.mem_cons, forall_eq_or_imp]
    constructor
    · intro h
      exact ⟨by omega, ih.mp (by omega)⟩
    · intro h
      have := ih.mpr h.2
      omega

theorem sum_map_eq_zero {α : Type} (f : α → Nat) (l : List α) :
    (l.map f).sum = 0 ↔ ∀ t ∈ l, f t = 0 := by
  induction l with
  | nil => simp
  | cons a rest ih =>
    simp only [List.map_cons, List.sum_cons, List.mem_cons, forall_eq_or_imp]
    constructor
    · intro h
      exact ⟨by omega, ih.mp (by omega)⟩
    · intro h
      have := ih.mpr h.2
      omega

/-- An entry contributing 0 leaves room for one more. -/
theorem sum_map_succ_le_length {α : Type} (f : α → Nat) (hf : ∀ t, f t ≤ 1) (l : List α)
    (i : Nat) (t : α) (h : l[i]? = some t) (h0 : f t = 0) : (l.map f).sum + 1 ≤ l.length := by
  induction l generalizing i with
  | nil => simp at h
  | cons a rest ih =>
    cases i with
    | zero =>
      simp only [List.getElem?_cons_zero, Option.some.injEq] at h
      subst h
      have := sum_map_le_length f hf rest
      simp only [List.map_cons, List.sum_cons, List.length_cons]
      omega
    | succ i =>
      simp only [List.getElem?_cons_succ] at h
      have := ih i h
      have := hf a
      simp only [List.map_cons, List.sum_cons, List.length_cons]
      omega

/-- An entry contributing 1 makes the sum positive. -/
theorem sum_map_pos {α : Type} (f : α → Nat) (l : List α)
    (i : Nat) (t : α) (h : l[i]? = some t) (h1 : f t = 1) : 1 ≤ (l.map f).sum := by
  induction l generalizing i with
  | nil => simp at h
  | cons a rest ih =>
    cases i with
    | zero =>
      simp only [List.getElem?_cons_zero, Option.some.injEq] at h
      subst h
      simp only [List.map_cons, List.sum_cons]
      omega
    | succ i =>
      simp only [List.getElem?_cons_succ] at h
      have := ih i h
      simp only [List.map_cons, List.sum_cons]
      omega

/-- A nonempty list has an entry of least measure. -/
theorem exists_min_entry {α : Type} (f : α → Nat) (l : List α) (h : l ≠ []) :
    ∃ (i : Nat) (t : α), l[i]? = some t ∧ ∀ b ∈ l, f t ≤ f b := by
  induction l with
  | nil => exact absurd rfl h
  | cons a rest ih =>
    by_cases hr : rest = []
    · subst hr
      exact ⟨0, a, by simp, by simp⟩
    · obtain ⟨i, t, hi, hmin⟩ := ih hr
      by_cases hle : f a ≤ f t
      · refine ⟨0, a, by simp, ?_⟩
        intro b hb
        rcases List.mem_cons.mp hb with hb | hb
        · subst hb
          exact le_refl _
        · exact le_trans hle (hmin b hb)
      · refine ⟨i + 1, t, by simpa using hi, ?_⟩
        intro b hb
        rcases List.mem_cons.mp hb with hb | hb
        · subst hb
          omega
        · exact hmin b hb

end embree

namespace embree
namespace BVH4iBuilder

theorem toU32_of_lt (x : Int) (h0 : 0 ≤ x) (h1 : x < 2 ^ 32) : toU32 x = x.toNat := by
  unfold toU32
  rw [Int.emod_eq_of_lt h0 h1]

/-- The `FATAL` path of `allocNode` is taken exactly when the cursor value
before the addition is at or beyond the capacity; the request size plays no
part in the test. -/
theorem allocNode_fatal_iff (s : AllocState) (size : Int) :
    (∃ msg, (allocNode s size).1 = AllocResult.fatal msg) ↔
      s.numAllocatedNodes ≤ s.atomicID := by
  unfold allocNode atomicAdd
  by_cases h : s.atomicID ≥ s.numAllocatedNodes
  · simp [h]
  · simp [h]

/-- C1: at cursor 4 with capacity 6 the request `allocNode(4)` overruns the
reserved storage (slots 4..7, while `4 + 4 > 6`), yet the code does not take
the fatal path: it returns index 4 and moves the cursor to 8. -/
theorem allocNode_accepts_overrun :
    allocNode ⟨4, 6⟩ 4 = (AllocResult.ret 4, ⟨8, 6⟩) ∧ ¬ (4 + 4 ≤ 6) := by
  constructor
  · decide
  · decide

theorem allocNode_ret (s : AllocState) (size : Int) (r : Nat)
    (h : (allocNode s size).1 = AllocResult.ret r) : r = s.atomicID := by
  unfold allocNode atomicAdd at h
  by_cases hc : s.atomicID ≥ s.numAllocatedNodes
  · simp [hc] at h
  · simp [hc] at h
    omega

theorem allocNode_next (s : AllocState) (size : Int) (h0 : 0 ≤ size)
    (h1 : (s.atomicID : Int) + size < 2 ^ 32) :
    ((allocNode s size).2.atomicID : Int) = s.atomicID + size ∧
      (allocNode s size).2.numAllocatedNodes = s.numAllocatedNodes := by
  have hu : toU32 ((s.atomicID : Int) + size) = ((s.atomicID : Int) + size).toNat :=
    toU32_of_lt _ (by omega) h1
  unfold allocNode atomicAdd
  by_cases hc : s.atomicID ≥ s.numAllocatedNodes
  · simp [hc, hu]
    omega
  · simp [hc, hu]
    omega

theorem sizes_sum_nonneg (l : List Int) (hpos : ∀ n ∈ l, 1 ≤ n) : 0 ≤ l.sum := by
  induction l with
  | nil => simp
  | cons a t ih =>
    have ha : 1 ≤ a := hpos a (by simp)
    have ht : 0 ≤ t.sum := ih (fun n hn => hpos n (by simp [hn]))
    simp only [List.sum_cons]
    omega

/-- Without wrap-around the cursor after a sequence of calls is the start
value plus the sum of the request sizes. -/
theorem allocFinal_cursor (l : List Int) (s : AllocState) (hpos : ∀ n ∈ l, 1 ≤ n)
    (htot : (s.atomicID : Int) + l.sum < 2 ^ 32) :
    ((allocFinal s l).atomicID : Int) = s.atomicID + l.sum := by
  induction l generalizing s with
  | nil => simp [allocFinal]
  | cons a t ih =>
    have ha : 1 ≤ a := hpos a (by simp)
    have ht : 0 ≤ t.sum := sizes_sum_nonneg t (fun n hn => hpos n (by simp [hn]))
    simp only [List.sum_cons] at htot
    have hn := allocNode_next s a (by omega) (by omega)
    have := ih (allocNode s a).2 (fun n hn => hpos n (by simp [hn])) (by omega)
    simp only [allocFinal, List.sum_cons]
    omega

/-- Every index returned in a sequence of calls is at or above the cursor value
at the start of the sequence. -/
theorem allocResults_ge (l : List Int) (s : AllocState) (hpos : ∀ n ∈ l, 1 ≤ n)
    (htot : (s.atomicID : Int) + l.sum < 2 ^ 32) (j r : Nat)
    (hj : (allocResults s l)[j]? = some (AllocResult.ret r)) : s.atomicID ≤ r := by
  induction l generalizing s j with
  | nil => simp [allocResults] at hj
  | cons a t ih =>
    have ha : 1 ≤ a := hpos a (by simp)
    have ht : 0 ≤ t.sum := sizes_sum_nonneg t (fun n hn => hpos n (by simp [hn]))
    simp only [List.sum_cons] at htot
    have hn := allocNode_next s a (by omega) (by omega)
    cases j with
    | zero =>
      simp only [allocResults, List.getElem?_cons_zero, Option.some.injEq] at hj
      have := allocNode_ret s a r hj
      omega
    | succ j =>
      simp only [allocResults, List.getElem?_cons_succ] at hj
      have := ih (allocNode s a).2 (fun n hn => hpos n (by simp [hn])) (by omega) j hj
      omega

/-- The slot range handed out by an earlier successful call ends at or before
the index returned by any later successful call. -/
theorem allocResults_ordered (l : List Int) (s : AllocState) (hpos : ∀ n ∈ l, 1 ≤ n)
    (htot : (s.atomicID : Int) + l.sum < 2 ^ 32) (i j ri rj : Nat) (ni : Int) (hij : i < j)
    (hi : (allocResults s l)[i]? = some (AllocResult.ret ri))
    (hj : (allocResults s l)[j]? = some (AllocResult.ret rj))
    (hn : l[i]? = some ni) : (ri : Int) + ni ≤ rj := by
  induction l generalizing s i j with
  | nil => simp at hn
  | cons a t ih =>
    have ha : 1 ≤ a := hpos a (by simp)
    have ht : 0 ≤ t.sum := sizes_sum_nonneg t (fun n hn => hpos n (by simp [hn]))
    simp only [List.sum_cons] at htot
    have hnx := allocNode_next s a (by omega) (by omega)
    cases j with
    | zero => omega
    | succ j =>
      simp only [allocResults, List.getElem?_cons_succ] at hj
      cases i with
      | zero =>
        simp only [allocResults, List.getElem?_cons_zero, Option.some.injEq] at hi hn
        have h1 := allocNode_ret s a ri hi
        have h2 := allocResults_ge t (allocNode s a).2 (fun n hn => hpos n (by simp [hn]))
          (by omega) j rj hj
        omega
      | succ i =>
        simp only [allocResults, List.getElem?_cons_succ] at hi hn
        exact ih (allocNode s a).2 (fun n hn => hpos n (by simp [hn])) (by omega) i j
          (by omega) hi hj hn

theorem sizes_take_sum (l : List Int) (hpos : ∀ n ∈ l, 1 ≤ n) (k : Nat) :
    (l.take k).sum ≤ (l.take (k + 1)).sum ∧ (l.take k).sum ≤ l.sum := by
  constructor
  · rw [List.take_succ, List.sum_append]
    cases h : l[k]? with
    | none => simp
    | some a =>
      have : 1 ≤ a := hpos a (List.mem_iff_getElem?.mpr ⟨k, h⟩)
      simp
      omega
  · have h := List.take_append_drop k l
    have hd : 0 ≤ (l.drop k).sum :=
      sizes_sum_nonneg _ (fun n hn => hpos n (List.mem_of_mem_drop hn))
    have : l.sum = (l.take k).sum + (l.drop k).sum := by
      rw [← List.sum_append, h]
    omega

/-- C2: in every sequence of `allocNode` calls started at cursor 0, with
request sizes at least 1 and a total below 2^32, the cursor after `k + 1` calls
is never below the cursor after `k` calls, and for two successful calls `i < j`
the later index is strictly greater, lies at or beyond the end of the earlier
range, and no slot belongs to both ranges `[ri, ri + ni)` and `[rj, rj + nj)`. -/
theorem allocNode_sequence_unique (cap : Nat) (sizes : List Int)
    (hpos : ∀ n ∈ sizes, 1 ≤ n) (htot : sizes.sum < 2 ^ 32) :
    (∀ k, (allocFinal ⟨0, cap⟩ (sizes.take k)).atomicID ≤
        (allocFinal ⟨0, cap⟩ (sizes.take (k + 1))).atomicID) ∧
    (∀ (i j ri rj : Nat) (ni nj : Int), i < j →
        (allocResults ⟨0, cap⟩ sizes)[i]? = some (AllocResult.ret ri) →
        (allocResults ⟨0, cap⟩ sizes)[j]? = some (AllocResult.ret rj) →
        sizes[i]? = some ni → sizes[j]? = some nj →
        ri < rj ∧ (ri : Int) + ni ≤ rj ∧
          ∀ x : Int, ¬ ((ri : Int) ≤ x ∧ x < ri + ni ∧ (rj : Int) ≤ x ∧ x < rj + nj)) := by
  constructor
  · intro k
    have hk := sizes_take_sum sizes hpos k
    have hk1 := sizes_take_sum sizes hpos (k + 1)
    have h1 := allocFinal_cursor (sizes.take k) ⟨0, cap⟩
      (fun n hn => hpos n (List.mem_of_mem_take hn)) (by simp only [Nat.cast_zero]; omega)
    have h2 := allocFinal_cursor (sizes.take (k + 1)) ⟨0, cap⟩
      (fun n hn => hpos n (List.mem_of_mem_take hn)) (by simp only [Nat.cast_zero]; omega)
    simp only [Nat.cast_zero] at h1 h2
    omega
  · intro i j ri rj ni nj hij hi hj hni hnj
    have hord := allocResults_ordered sizes ⟨0, cap⟩ hpos (by simp only [Nat.cast_zero]; omega)
      i j ri rj ni hij hi hj hni
    have h1 : 1 ≤ ni := hpos ni (List.mem_iff_getElem?.mpr ⟨i, hni⟩)
    refine ⟨by omega, hord, ?_⟩
    intro x hx
    omega

/-- Witness for C2: three requests of sizes 4, 4 and 2 against capacity 9. -/
theorem allocNode_sequence_unique_witness :
    (∀ n ∈ ([4, 4, 2] : List Int), 1 ≤ n) ∧ ([4, 4, 2] : List Int).sum < 2 ^ 32 ∧
    allocResults ⟨0, 9⟩ [4, 4, 2] =
        [AllocResult.ret 0, AllocResult.ret 4, AllocResult.ret 8] ∧
    ((∀ k, (allocFinal ⟨0, 9⟩ (([4, 4, 2] : List Int).take k)).atomicID ≤
        (allocFinal ⟨0, 9⟩ (([4, 4, 2] : List Int).take (k + 1))).atomicID) ∧
    (∀ (i j ri rj : Nat) (ni nj : Int), i < j →
        (allocResults ⟨0, 9⟩ [4, 4, 2])[i]? = some (AllocResult.ret ri) →
        (allocResults ⟨0, 9⟩ [4, 4, 2])[j]? = some (AllocResult.ret rj) →
        ([4, 4, 2] : List Int)[i]? = some ni → ([4, 4, 2] : List Int)[j]? = some nj →
        ri < rj ∧ (ri : Int) + ni ≤ rj ∧
          ∀ x : Int, ¬ ((ri : Int) ≤ x ∧ x < ri + ni ∧ (rj : Int) ≤ x ∧ x < rj + nj))) :=
  ⟨by decide, by decide, by decide,
    allocNode_sequence_unique 9 [4, 4, 2] (by decide) (by decide)⟩

end BVH4iBuilder
end embree

namespace embree
namespace isa
namespace FastInstanceIntersector1

/-- C9: `FastInstanceIntersector1::intersect` returns the ray with `org` and
`dir` as on entry; the nested call is entered with `geomID = -1` and
`instID = instance->id`; when the nested call leaves `geomID = -1` the fields
`geomID` and `instID` are as on entry, otherwise they are the values left by
the nested call. -/
theorem intersect_frame {F V A : Type} (xfmPoint xfmVector : A → V → V)
    (objectIntersect : Ray F V → Ray F V) (inst : Instance F A) (ray : Ray F V) :
    (intersect xfmPoint xfmVector objectIntersect inst ray).org = ray.org ∧
    (intersect xfmPoint xfmVector objectIntersect inst ray).dir = ray.dir ∧
    (intersectEnter xfmPoint xfmVector inst ray).geomID = -1 ∧
    (intersectEnter xfmPoint xfmVector inst ray).instID = inst.id ∧
    ((objectIntersect (intersectEnter xfmPoint xfmVector inst ray)).geomID = -1 →
      (intersect xfmPoint xfmVector objectIntersect inst ray).geomID = ray.geomID ∧
      (intersect xfmPoint xfmVector objectIntersect inst ray).instID = ray.instID) ∧
    ((objectIntersect (intersectEnter xfmPoint xfmVector inst ray)).geomID ≠ -1 →
      (intersect xfmPoint xfmVector objectIntersect inst ray).geomID =
        (objectIntersect (intersectEnter xfmPoint xfmVector inst ray)).geomID ∧
      (intersect xfmPoint xfmVector objectIntersect inst ray).instID =
        (objectIntersect (intersectEnter xfmPoint xfmVector inst ray)).instID) := by
  refine ⟨?_, ?_, rfl, rfl, ?_, ?_⟩
  · unfold intersect
    dsimp only
    split <;> rfl
  · unfold intersect
    dsimp only
    split <;> rfl
  · intro h
    unfold intersect
    dsimp only
    rw [if_pos h]
    exact ⟨rfl, rfl⟩
  · intro h
    unfold intersect
    dsimp only
    rw [if_neg h]
    exact ⟨rfl, rfl⟩

end FastInstanceIntersector1
end isa
end embree

namespace embree
namespace isa

theorem store_same {α : Type} (a : Nat → α) (i : Nat) (x : α) : store a i x i = x := by
  simp [store]

theorem store_other {α : Type} (a : Nat → α) (i j : Nat) (x : α) (h : j ≠ i) :
    store a i x j = a j := by
  simp [store, h]

namespace FastInstanceIntersector1M

/-- State of the first loop after `M` iterations: slots below `M` hold the
local ray built from `rays[i]`, the other slots still hold their initial
content, and with a single time step `world2local` is still the value of
`getWorld2Local()`. -/
theorem setupLoop_inv {F V A : Type} (xfmPoint xfmVector : A → V → V)
    (inst : Instance F A) (rays lrays0 : Nat → Ray F V) (M : Nat) :
    (inst.numTimeSteps = 1 →
      ((List.range M).foldl (setupBody xfmPoint xfmVector inst rays)
        (inst.getWorld2Local0, lrays0)).1 = inst.getWorld2Local0) ∧
    ∀ i, ((List.range M).foldl (setupBody xfmPoint xfmVector inst rays)
        (inst.getWorld2Local0, lrays0)).2 i =
      if i < M then
        { lrays0 i with
          org := xfmPoint (if inst.numTimeSteps ≠ 1 then inst.getWorld2Local (rays i).time
                    else inst.getWorld2Local0) (rays i).org
          dir := xfmVector (if inst.numTimeSteps ≠ 1 then inst.getWorld2Local (rays i).time
                    else inst.getWorld2Local0) (rays i).dir
          tnear := (rays i).tnear
          tfar := (rays i).tfar
          time := (rays i).time
          mask := (rays i).mask
          geomID := -1
          instID := inst.id }
      else lrays0 i := by
  induction M with
  | zero => simp
  | succ M ih =>
    obtain ⟨ihw, ihl⟩ := ih
    rw [List.range_succ, List.foldl_append]
    simp only [List.foldl_cons, List.foldl_nil]
    constructor
    · intro h1
      simp only [setupBody, h1, ne_eq, not_true_eq_false, if_false]
      exact ihw h1
    · intro i
      by_cases hi : i = M
      · subst hi
        have hl := ihl i
        simp only [lt_irrefl, if_false] at hl
        simp only [setupBody, store_same, Nat.lt_succ_self, if_true, hl]
        by_cases h1 : inst.numTimeSteps = 1
        · simp only [h1, ne_eq, not_true_eq_false, if_false, ihw h1]
        · simp only [h1, ne_eq, not_false_eq_true, if_true]
      · have hl := ihl i
        simp only [setupBody]
        rw [store_other _ _ _ _ hi, hl]
        by_cases hlt : i < M
        · have : i < M + 1 := by omega
          simp only [hlt, this, if_true]
        · have : ¬ i < M + 1 := by omega
          simp only [hlt, this, if_false]

/-- One iteration of the second loop, read at slot `i`. -/
theorem writeBackBody_at {F V : Type} (lrays rays : Nat → Ray F V) (k i : Nat) :
    writeBackBody lrays rays k i =
      if i = k ∧ (lrays k).geomID ≠ -1 then
        { rays k with
          instID := (lrays k).instID
          geomID := (lrays k).geomID
          primID := (lrays k).primID
          u := (lrays k).u
          v := (lrays k).v
          tfar := (lrays k).tfar
          Ng := (lrays k).Ng }
      else rays i := by
  unfold writeBackBody
  by_cases hg : (lrays k).geomID = -1
  · rw [if_pos hg, if_neg (by simp [hg])]
  · rw [if_neg hg]
    by_cases hi : i = k
    · have hc : i = k ∧ (lrays k).geomID ≠ -1 := ⟨hi, hg⟩
      rw [if_pos hc, hi, store_same]
    · have hc : ¬ (i = k ∧ (lrays k).geomID ≠ -1) := fun h => hi h.1
      rw [if_neg hc, store_other _ _ _ _ hi]

/-- State of the second loop after `M` iterations. -/
theorem writeBackLoop_inv {F V : Type} (lrays rays : Nat → Ray F V) (M : Nat) (i : Nat) :
    (List.range M).foldl (writeBackBody lrays) rays i =
      if i < M ∧ (lrays i).geomID ≠ -1 then
        { rays i with
          instID := (lrays i).instID
          geomID := (lrays i).geomID
          primID := (lrays i).primID
          u := (lrays i).u
          v := (lrays i).v
          tfar := (lrays i).tfar
          Ng := (lrays i).Ng }
      else rays i := by
  induction M generalizing i with
  | zero => simp
  | succ M ih =>
    rw [List.range_succ, List.foldl_append]
    simp only [List.foldl_cons, List.foldl_nil]
    rw [writeBackBody_at]
    by_cases hi : i = M
    · rw [hi]
      have h0 : ¬ (M < M ∧ (lrays M).geomID ≠ -1) := fun h => Nat.lt_irrefl M h.1
      by_cases hg : (lrays M).geomID = -1
      · have h1 : ¬ (M = M ∧ (lrays M).geomID ≠ -1) := fun h => h.2 hg
        have h2 : ¬ (M < M + 1 ∧ (lrays M).geomID ≠ -1) := fun h => h.2 hg
        rw [if_neg h1, if_neg h2, ih M, if_neg h0]
      · have h1 : M = M ∧ (lrays M).geomID ≠ -1 := ⟨rfl, hg⟩
        have h2 : M < M + 1 ∧ (lrays M).geomID ≠ -1 := ⟨Nat.lt_succ_self M, hg⟩
        rw [if_pos h1, if_pos h2, ih M, if_neg h0]
    · have h1 : ¬ (i = M ∧ (lrays M).geomID ≠ -1) := fun h => hi h.1
      rw [if_neg h1, ih i]
      by_cases hlt : i < M
      · have : i < M + 1 := by omega
        simp only [hlt, this]
      · have : ¬ i < M + 1 := by omega
        simp only [hlt, this]

/-- C10: for `M < MAX_INTERNAL_STREAM_SIZE` the function
`FastInstanceIntersector1M::intersect` returns, and for every `i < M`: the
local ray handed to the nested call has `geomID = -1`, `instID = instance->id`
and `tnear`, `tfar`, `time`, `mask` copied from `rays[i]`; if the local ray has
`geomID = -1` after the nested call then `*rays[i]` is unchanged; otherwise
`*rays[i]` is its value on entry with exactly `instID`, `geomID`, `primID`,
`u`, `v`, `tfar` and `Ng` replaced by the local ray's values, so that `org`,
`dir`, `tnear`, `time` and `mask` are as on entry. -/
theorem intersect1M_frame {F V A : Type} (MAX_INTERNAL_STREAM_SIZE M : Nat)
    (hM : M < MAX_INTERNAL_STREAM_SIZE) (xfmPoint xfmVector : A → V → V)
    (rtcIntersect1M : (Nat → Ray F V) → Nat → (Nat → Ray F V))
    (inst : Instance F A) (rays lrays0 : Nat → Ray F V) :
    ∃ out, intersect MAX_INTERNAL_STREAM_SIZE xfmPoint xfmVector rtcIntersect1M inst
        rays lrays0 M = some out ∧
      ∀ i, i < M →
        ((setupRays xfmPoint xfmVector inst rays lrays0 M i).geomID = -1 ∧
         (setupRays xfmPoint xfmVector inst rays lrays0 M i).instID = inst.id ∧
         (setupRays xfmPoint xfmVector inst rays lrays0 M i).tnear = (rays i).tnear ∧
         (setupRays xfmPoint xfmVector inst rays lrays0 M i).tfar = (rays i).tfar ∧
         (setupRays xfmPoint xfmVector inst rays lrays0 M i).time = (rays i).time ∧
         (setupRays xfmPoint xfmVector inst rays lrays0 M i).mask = (rays i).mask) ∧
        ((rtcIntersect1M (setupRays xfmPoint xfmVector inst rays lrays0 M) M i).geomID = -1 →
          out i = rays i) ∧
        ((rtcIntersect1M (setupRays xfmPoint xfmVector inst rays lrays0 M) M i).geomID ≠ -1 →
          out i =
            { rays i with
              instID := (rtcIntersect1M (setupRays xfmPoint xfmVector inst rays lrays0 M) M i).instID
              geomID := (rtcIntersect1M (setupRays xfmPoint xfmVector inst rays lrays0 M) M i).geomID
              primID := (rtcIntersect1M (setupRays xfmPoint xfmVector inst rays lrays0 M) M i).primID
              u := (rtcIntersect1M (setupRays xfmPoint xfmVector inst rays lrays0 M) M i).u
              v := (rtcIntersect1M (setupRays xfmPoint xfmVector inst rays lrays0 M) M i).v
              tfar := (rtcIntersect1M (setupRays xfmPoint xfmVector inst rays lrays0 M) M i).tfar
              Ng := (rtcIntersect1M (setupRays xfmPoint xfmVector inst rays lrays0 M) M i).Ng } ∧
          (out i).org = (rays i).org ∧ (out i).dir = (rays i).dir ∧
          (out i).tnear = (rays i).tnear ∧ (out i).time = (rays i).time ∧
          (out i).mask = (rays i).mask) := by
  refine ⟨_, by unfold intersect; rw [if_pos hM], ?_⟩
  intro i hi
  have hs := (setupLoop_inv xfmPoint xfmVector inst rays lrays0 M).2 i
  rw [if_pos hi] at hs
  have hw := writeBackLoop_inv
    (rtcIntersect1M (setupRays xfmPoint xfmVector inst rays lrays0 M) M) rays M i
  refine ⟨?_, ?_, ?_⟩
  · unfold setupRays
    rw [hs]
    exact ⟨rfl, rfl, rfl, rfl, rfl, rfl⟩
  · intro hg
    have hc : ¬ (i < M ∧
        (rtcIntersect1M (setupRays xfmPoint xfmVector inst rays lrays0 M) M i).geomID ≠ -1) :=
      fun h => h.2 hg
    rw [hw, if_neg hc]
  · intro hg
    have hc : i < M ∧
        (rtcIntersect1M (setupRays xfmPoint xfmVector inst rays lrays0 M) M i).geomID ≠ -1 :=
      ⟨hi, hg⟩
    rw [hw, if_pos hc]
    exact ⟨rfl, rfl, rfl, rfl, rfl, rfl⟩

end FastInstanceIntersector1M
end isa
end embree

namespace embree
namespace isa
namespace FastInstanceIntersector1M

/-- Witness for C10: two rays, stream size limit 8; the nested call hits the
first local ray only. -/
theorem intersect1M_frame_witness :
    2 < 8 ∧
    ∃ out, intersect 8 sampleXfm sampleXfm sampleNested sampleInstance
        sampleRays sampleRays 2 = some out ∧
      ∀ i, i < 2 →
        ((setupRays sampleXfm sampleXfm sampleInstance sampleRays sampleRays 2 i).geomID = -1 ∧
         (setupRays sampleXfm sampleXfm
             sampleInstance sampleRays sampleRays 2 i).instID = sampleInstance.id ∧
         (setupRays sampleXfm sampleXfm
             sampleInstance sampleRays sampleRays 2 i).tnear = (sampleRays i).tnear ∧
         (setupRays sampleXfm sampleXfm
             sampleInstance sampleRays sampleRays 2 i).tfar = (sampleRays i).tfar ∧
         (setupRays sampleXfm sampleXfm
             sampleInstance sampleRays sampleRays 2 i).time = (sampleRays i).time ∧
         (setupRays sampleXfm sampleXfm
             sampleInstance sampleRays sampleRays 2 i).mask = (sampleRays i).mask) ∧
        ((sampleNested (setupRays sampleXfm sampleXfm
            sampleInstance sampleRays sampleRays 2) 2 i).geomID = -1 →
          out i = sampleRays i) ∧
        ((sampleNested (setupRays sampleXfm sampleXfm
            sampleInstance sampleRays sampleRays 2) 2 i).geomID ≠ -1 →
          out i =
            { sampleRays i with
              instID := (sampleNested (setupRays sampleXfm sampleXfm
                  sampleInstance sampleRays sampleRays 2) 2 i).instID
              geomID := (sampleNested (setupRays sampleXfm sampleXfm
                  sampleInstance sampleRays sampleRays 2) 2 i).geomID
              primID := (sampleNested (setupRays sampleXfm sampleXfm
                  sampleInstance sampleRays sampleRays 2) 2 i).primID
              u := (sampleNested (setupRays sampleXfm sampleXfm
                  sampleInstance sampleRays sampleRays 2) 2 i).u
              v := (sampleNested (setupRays sampleXfm sampleXfm
                  sampleInstance sampleRays sampleRays 2) 2 i).v
              tfar := (sampleNested (setupRays sampleXfm sampleXfm
                  sampleInstance sampleRays sampleRays 2) 2 i).tfar
              Ng := (sampleNested (setupRays sampleXfm sampleXfm
                  sampleInstance sampleRays sampleRays 2) 2 i).Ng } ∧
          (out i).org = (sampleRays i).org ∧ (out i).dir = (sampleRays i).dir ∧
          (out i).tnear = (sampleRays i).tnear ∧ (out i).time = (sampleRays i).time ∧
          (out i).mask = (sampleRays i).mask) :=
  ⟨by decide,
    intersect1M_frame 8 2 (by decide) sampleXfm sampleXfm sampleNested
      sampleInstance sampleRays sampleRays⟩

end FastInstanceIntersector1M
end isa
end embree

namespace embree
namespace BarrierActiveAutoReset

theorem in0_le_one (t : Thread) : in0 t ≤ 1 := by
  rcases t with ⟨r, l⟩
  cases l <;> simp [in0]

theorem in1_le_one (t : Thread) : in1 t ≤ 1 := by
  rcases t with ⟨r, l⟩
  cases l <;> simp [in1]

theorem inv_init (N : Nat) : Inv N (init N) := by
  refine ⟨by simp [init], ?_, ?_, ?_⟩
  · have h : ((init N).threads.map in0).sum = 0 := by
      rw [sum_map_eq_zero]
      intro t ht
      simp only [init, List.mem_replicate] at ht
      rw [ht.2]
      rfl
    rw [h]
    rfl
  · have h : ((init N).threads.map in1).sum = 0 := by
      rw [sum_map_eq_zero]
      intro t ht
      simp only [init, List.mem_replicate] at ht
      rw [ht.2]
      rfl
    rw [h]
    rfl
  · intro a ha b hb
    simp only [init, List.mem_replicate] at ha hb
    rw [ha.2, hb.2]
    simp [progress, Loc.idx]

/-- Replacing thread `t` by its successor `t1` (one more operation performed)
keeps the invariant, provided the counters are adjusted by the change of the
thread's contributions and, at a spin test, no thread is behind `t`. -/
theorem inv_update (N : Nat) (s : State) (i : Nat) (t t1 : Thread) (c0 c1 : Nat)
    (hinv : Inv N s) (hget : s.threads[i]? = some t)
    (hp : progress t1 = progress t + 1)
    (h0 : c0 + in0 t = s.cntr0 + in0 t1) (h1 : c1 + in1 t = s.cntr1 + in1 t1)
    (hpass : progress t % 2 = 1 → ∀ b ∈ s.threads, progress t ≤ progress b) :
    Inv N ⟨c0, c1, s.threads.set i t1⟩ := by
  obtain ⟨hlen, hc0, hc1, hwin⟩ := hinv
  have ht : t ∈ s.threads := List.mem_iff_getElem?.mpr ⟨i, hget⟩
  have hs0 := sum_map_set in0 s.threads i t t1 hget
  have hs1 := sum_map_set in1 s.threads i t t1 hget
  refine ⟨by simp [hlen], ?_, ?_, ?_⟩
  · show c0 = ((s.threads.set i t1).map in0).sum
    omega
  · show c1 = ((s.threads.set i t1).map in1).sum
    omega
  · intro a ha b hb
    have ha : a ∈ s.threads.set i t1 := ha
    have hb : b ∈ s.threads.set i t1 := hb
    have hnew : ∀ b ∈ s.threads,
        progress t1 ≤ progress b + 2 ∧ (progress t1 % 2 = 0 → progress t1 ≤ progress b + 1) := by
      intro b hb
      have hw := hwin t ht b hb
      by_cases hodd : progress t % 2 = 1
      · have := hpass hodd b hb
        omega
      · omega
    rcases List.mem_or_eq_of_mem_set ha with ha | ha
    · rcases List.mem_or_eq_of_mem_set hb with hb | hb
      · exact hwin a ha b hb
      · rw [hb]
        have hw := hwin a ha t ht
        omega
    · rw [ha]
      rcases List.mem_or_eq_of_mem_set hb with hb | hb
      · exact hnew b hb
      · rw [hb]
        omega

/-- A thread that passes the test of line 75 has no thread behind it. -/
theorem pass_full0 (N : Nat) (s : State) (r : Nat) (hinv : Inv N s)
    (ht : (⟨r, Loc.full0⟩ : Thread) ∈ s.threads) (hc : s.cntr0 = N) :
    ∀ b ∈ s.threads, progress ⟨r, Loc.full0⟩ ≤ progress b := by
  obtain ⟨hlen, hc0, hc1, hwin⟩ := hinv
  have hall := (sum_map_eq_length in0 in0_le_one s.threads).mp (by omega)
  intro b hb
  have h1 := hall b hb
  have hw := (hwin _ ht b hb).1
  rcases b with ⟨rb, lb⟩
  cases lb <;> simp [in0, progress, Loc.idx] at h1 hw ⊢ <;> omega

/-- A thread that passes the test of line 77 has no thread behind it. -/
theorem pass_full1 (N : Nat) (s : State) (r : Nat) (hinv : Inv N s)
    (ht : (⟨r, Loc.full1⟩ : Thread) ∈ s.threads) (hc : s.cntr1 = N) :
    ∀ b ∈ s.threads, progress ⟨r, Loc.full1⟩ ≤ progress b := by
  obtain ⟨hlen, hc0, hc1, hwin⟩ := hinv
  have hall := (sum_map_eq_length in1 in1_le_one s.threads).mp (by omega)
  intro b hb
  have h1 := hall b hb
  have hw := (hwin _ ht b hb).1
  rcases b with ⟨rb, lb⟩
  cases lb <;> simp [in1, progress, Loc.idx] at h1 hw ⊢ <;> omega

/-- A thread that passes the test of line 79 has no thread behind it. -/
theorem pass_zero0 (N : Nat) (s : State) (r : Nat) (hinv : Inv N s)
    (ht : (⟨r, Loc.zero0⟩ : Thread) ∈ s.threads) (hc : s.cntr0 = 0) :
    ∀ b ∈ s.threads, progress ⟨r, Loc.zero0⟩ ≤ progress b := by
  obtain ⟨hlen, hc0, hc1, hwin⟩ := hinv
  have hall := (sum_map_eq_zero in0 s.threads).mp (by omega)
  intro b hb
  have h1 := hall b hb
  have hw := (hwin _ ht b hb).1
  have hw2 := (hwin b hb _ ht).1
  rcases b with ⟨rb, lb⟩
  cases lb <;> simp [in0, progress, Loc.idx] at h1 hw hw2 ⊢ <;> omega

/-- A thread that passes the test of line 81 has no thread behind it. -/
theorem pass_zero1 (N : Nat) (s : State) (r : Nat) (hinv : Inv N s)
    (ht : (⟨r, Loc.zero1⟩ : Thread) ∈ s.threads) (hc : s.cntr1 = 0) :
    ∀ b ∈ s.threads, progress ⟨r, Loc.zero1⟩ ≤ progress b := by
  obtain ⟨hlen, hc0, hc1, hwin⟩ := hinv
  have hall := (sum_map_eq_zero in1 s.threads).mp (by omega)
  intro b hb
  have h1 := hall b hb
  have hw := (hwin _ ht b hb).1
  have hw2 := (hwin b hb _ ht).1
  rcases b with ⟨rb, lb⟩
  cases lb <;> simp [in1, progress, Loc.idx] at h1 hw hw2 ⊢ <;> omega

/-- Every atomic operation of `wait(N)` keeps the invariant. -/
theorem inv_step (N : Nat) (hN : N < 2 ^ 64) (s s1 : State) (i : Nat) (hinv : Inv N s)
    (hstep : step N s i = some s1) : Inv N s1 := by
  unfold step at hstep
  cases hget : s.threads[i]? with
  | none => simp [hget] at hstep
  | some t =>
    have ht : t ∈ s.threads := List.mem_iff_getElem?.mpr ⟨i, hget⟩
    have hlen := hinv.1
    have hc0 := hinv.2.1
    have hc1 := hinv.2.2.1
    rcases t with ⟨r, l⟩
    cases l <;> simp only [hget] at hstep
    · -- line 74
      have hb := sum_map_succ_le_length in0 in0_le_one s.threads i _ hget rfl
      have hf := fetch_add_one s.cntr0 (by omega)
      cases hstep
      exact inv_update N s i _ _ _ _ hinv hget (by simp [progress, Loc.idx])
        (by simp [in0]; omega) (by simp [in1]) (by intro h; simp only [progress, Loc.idx] at h; omega)
    · -- line 75
      split at hstep
      · cases hstep
      · rename_i hc
        cases hstep
        exact inv_update N s i _ _ _ _ hinv hget (by simp [progress, Loc.idx])
          (by simp [in0]) (by simp [in1]) (fun _ => pass_full0 N s r hinv ht (by omega))
    · -- line 76
      have hb := sum_map_succ_le_length in1 in1_le_one s.threads i _ hget rfl
      have hf := fetch_add_one s.cntr1 (by omega)
      cases hstep
      exact inv_update N s i _ _ _ _ hinv hget (by simp [progress, Loc.idx])
        (by simp [in0]) (by simp [in1]; omega) (by intro h; simp only [progress, Loc.idx] at h; omega)
    · -- line 77
      split at hstep
      · cases hstep
      · rename_i hc
        cases hstep
        exact inv_update N s i _ _ _ _ hinv hget (by simp [progress, Loc.idx])
          (by simp [in0]) (by simp [in1]) (fun _ => pass_full1 N s r hinv ht (by omega))
    · -- line 78
      have hb := sum_map_pos in0 s.threads i _ hget rfl
      have hle := sum_map_le_length in0 in0_le_one s.threads
      have hf := fetch_add_neg_one s.cntr0 (by omega) (by omega)
      cases hstep
      exact inv_update N s i _ _ _ _ hinv hget (by simp [progress, Loc.idx])
        (by simp [in0]; omega) (by simp [in1]) (by intro h; simp only [progress, Loc.idx] at h; omega)
    · -- line 79
      split at hstep
      · cases hstep
      · rename_i hc
        cases hstep
        exact inv_update N s i _ _ _ _ hinv hget (by simp [progress, Loc.idx])
          (by simp [in0]) (by simp [in1]) (fun _ => pass_zero0 N s r hinv ht (by omega))
    · -- line 80
      have hb := sum_map_pos in1 s.threads i _ hget rfl
      have hle := sum_map_le_length in1 in1_le_one s.threads
      have hf := fetch_add_neg_one s.cntr1 (by omega) (by omega)
      cases hstep
      exact inv_update N s i _ _ _ _ hinv hget (by simp [progress, Loc.idx])
        (by simp [in0]) (by simp [in1]; omega) (by intro h; simp only [progress, Loc.idx] at h; omega)
    · -- line 81
      split at hstep
      · cases hstep
      · rename_i hc
        cases hstep
        exact inv_update N s i _ _ _ _ hinv hget (by simp [progress, Loc.idx]; omega)
          (by simp [in0]) (by simp [in1]) (fun _ => pass_zero1 N s r hinv ht (by omega))

/-- The invariant holds in every state reachable with repeated calls. -/
theorem inv_reach (N : Nat) (hN : N < 2 ^ 64) (s : State)
    (hs : Reach (step N) (init N) s) : Inv N s := by
  induction hs with
  | start => exact inv_init N
  | step s s1 i _ hstep ih => exact inv_step N hN s s1 i ih hstep

/-- Shape of a step: one thread is replaced, and it either stays in its
current call or has just returned from it. -/
theorem step_shape (N : Nat) (s s1 : State) (i : Nat) (hstep : step N s i = some s1) :
    ∃ t t1, s.threads[i]? = some t ∧ s1.threads = s.threads.set i t1 ∧
      (t1.round = t.round ∨ t1 = ⟨t.round + 1, Loc.add0⟩) := by
  unfold step at hstep
  cases hget : s.threads[i]? with
  | none => simp [hget] at hstep
  | some t =>
    rcases t with ⟨r, l⟩
    cases l <;> simp only [hget] at hstep
    · cases hstep
      exact ⟨_, _, rfl, rfl, Or.inl rfl⟩
    · split at hstep
      · cases hstep
      · cases hstep
        exact ⟨_, _, rfl, rfl, Or.inl rfl⟩
    · cases hstep
      exact ⟨_, _, rfl, rfl, Or.inl rfl⟩
    · split at hstep
      · cases hstep
      · cases hstep
        exact ⟨_, _, rfl, rfl, Or.inl rfl⟩
    · cases hstep
      exact ⟨_, _, rfl, rfl, Or.inl rfl⟩
    · split at hstep
      · cases hstep
      · cases hstep
        exact ⟨_, _, rfl, rfl, Or.inl rfl⟩
    · cases hstep
      exact ⟨_, _, rfl, rfl, Or.inl rfl⟩
    · split at hstep
      · cases hstep
      · cases hstep
        exact ⟨_, _, rfl, rfl, Or.inr rfl⟩

theorem stepOnce_step (N : Nat) (s s1 : State) (i : Nat) (h : stepOnce N s i = some s1) :
    step N s i = some s1 ∧ ∃ t, s.threads[i]? = some t ∧ t.round = 0 := by
  unfold stepOnce at h
  cases hget : s.threads[i]? with
  | none => simp [hget] at h
  | some t =>
    simp only [hget] at h
    split at h
    · rename_i h0
      exact ⟨h, t, rfl, h0⟩
    · cases h

/-- With one call per thread every reachable state is reachable with repeated
calls as well, and a thread that has returned rests between calls. -/
theorem reachOnce (N : Nat) (s : State) (hs : Reach (stepOnce N) (init N) s) :
    Reach (step N) (init N) s ∧
      ∀ t ∈ s.threads, t.round = 0 ∨ t = ⟨1, Loc.add0⟩ := by
  induction hs with
  | start =>
    refine ⟨Reach.start, ?_⟩
    intro t ht
    simp only [init, List.mem_replicate] at ht
    exact Or.inl (by rw [ht.2])
  | step s s1 i _ hstep ih =>
    obtain ⟨hst, t0, hget0, hr0⟩ := stepOnce_step N s s1 i hstep
    refine ⟨Reach.step s s1 i ih.1 hst, ?_⟩
    obtain ⟨t, t1, hget, hthreads, hsh⟩ := step_shape N s s1 i hst
    rw [hget0] at hget
    cases hget
    intro b hb
    rw [hthreads] at hb
    rcases List.mem_or_eq_of_mem_set hb with hb | hb
    · exact ih.2 b hb
    · rw [hb]
      rcases hsh with h | h
      · exact Or.inl (by omega)
      · rw [h, hr0]
        exact Or.inr rfl

/-- C3: in every state reachable when `N` threads (`N < 2^64`, the range of
`size_t`) call `wait(N)` repeatedly on a barrier constructed with both
counters 0, all `N` threads are present and, for every round `k`, if some
thread has returned from its `k`-th call then every thread has entered its
`k`-th call. -/
theorem wait_rendezvous (N : Nat) (hN64 : N < 2 ^ 64) (s : State)
    (hs : Reach (step N) (init N) s) (k : Nat) :
    s.threads.length = N ∧
      ∀ a ∈ s.threads, returned a k → ∀ b ∈ s.threads, entered b k := by
  obtain ⟨hlen, _, _, hwin⟩ := inv_reach N hN64 s hs
  refine ⟨hlen, ?_⟩
  intro a ha hret b hb
  have hw := hwin a ha b hb
  unfold returned at hret
  unfold entered
  rcases a with ⟨ra, la⟩
  rcases b with ⟨rb, lb⟩
  cases la <;> cases lb <;> simp [progress, Loc.idx] at hw hret ⊢ <;> omega

/-- C4: in every state reachable when `N` threads (`N < 2^64`) call `wait(N)`
once each on a barrier constructed with both counters 0, both counters are at
most `N`, and if all `N` threads have returned then both counters are 0. -/
theorem wait_resets_itself (N : Nat) (hN64 : N < 2 ^ 64) (s : State)
    (hs : Reach (stepOnce N) (init N) s) :
    s.threads.length = N ∧ s.cntr0 ≤ N ∧ s.cntr1 ≤ N ∧
      ((∀ t ∈ s.threads, returned t 1) → s.cntr0 = 0 ∧ s.cntr1 = 0) := by
  obtain ⟨hreach, honce⟩ := reachOnce N s hs
  obtain ⟨hlen, hc0, hc1, _⟩ := inv_reach N hN64 s hreach
  have h0 := sum_map_le_length in0 in0_le_one s.threads
  have h1 := sum_map_le_length in1 in1_le_one s.threads
  refine ⟨hlen, by omega, by omega, ?_⟩
  intro hall
  have hidle : ∀ t ∈ s.threads, t = ⟨1, Loc.add0⟩ := by
    intro t ht
    have hr := hall t ht
    unfold returned at hr
    rcases honce t ht with h | h
    · omega
    · exact h
  constructor
  · rw [hc0, sum_map_eq_zero]
    intro t ht
    rw [hidle t ht]
    rfl
  · rw [hc1, sum_map_eq_zero]
    intro t ht
    rw [hidle t ht]
    rfl

/-- C5: in every state reachable when `N` threads (`1 ≤ N < 2^64`) call
`wait(N)` repeatedly on a barrier constructed with both counters 0, some
thread can perform its next `fetch_add` or pass the spin test it is at. -/
theorem wait_never_stuck (N : Nat) (hN : 1 ≤ N) (hN64 : N < 2 ^ 64) (s : State)
    (hs : Reach (step N) (init N) s) :
    ∃ i s1, i < N ∧ step N s i = some s1 := by
  have hinv := inv_reach N hN64 s hs
  obtain ⟨hlen, hc0, hc1, hwin⟩ := hinv
  have hne : s.threads ≠ [] := by
    intro h
    rw [h] at hlen
    simp at hlen
    omega
  obtain ⟨i, t, hget, hmin⟩ := exists_min_entry progress s.threads hne
  have ht : t ∈ s.threads := List.mem_iff_getElem?.mpr ⟨i, hget⟩
  have hi : i < N := by
    obtain ⟨h, _⟩ := List.getElem?_eq_some.mp hget
    omega
  rcases t with ⟨r, l⟩
  cases l
  · exact ⟨i, _, hi, by simp only [step, hget]; rfl⟩
  · have hall : ∀ b ∈ s.threads, in0 b = 1 := by
      intro b hb
      have h1 := hmin b hb
      have h2 := (hwin b hb _ ht).1
      rcases b with ⟨rb, lb⟩
      cases lb <;> simp [in0, progress, Loc.idx] at h1 h2 ⊢ <;> omega
    have hsum := (sum_map_eq_length in0 in0_le_one s.threads).mpr hall
    have hc : s.cntr0 = N := by omega
    exact ⟨i, _, hi, by simp only [step, hget, hc, ne_eq, not_true_eq_false, if_false]; rfl⟩
  · exact ⟨i, _, hi, by simp only [step, hget]; rfl⟩
  · have hall : ∀ b ∈ s.threads, in1 b = 1 := by
      intro b hb
      have h1 := hmin b hb
      have h2 := (hwin b hb _ ht).1
      rcases b with ⟨rb, lb⟩
      cases lb <;> simp [in1, progress, Loc.idx] at h1 h2 ⊢ <;> omega
    have hsum := (sum_map_eq_length in1 in1_le_one s.threads).mpr hall
    have hc : s.cntr1 = N := by omega
    exact ⟨i, _, hi, by simp only [step, hget, hc, ne_eq, not_true_eq_false, if_false]; rfl⟩
  · exact ⟨i, _, hi, by simp only [step, hget]; rfl⟩
  · have hall : ∀ b ∈ s.threads, in0 b = 0 := by
      intro b hb
      have h1 := hmin b hb
      have h2 := (hwin b hb _ ht).1
      rcases b with ⟨rb, lb⟩
      cases lb <;> simp [in0, progress, Loc.idx] at h1 h2 ⊢ <;> omega
    have hsum := (sum_map_eq_zero in0 s.threads).mpr hall
    have hc : s.cntr0 = 0 := by omega
    exact ⟨i, _, hi, by simp only [step, hget, hc, ne_eq, not_true_eq_false, if_false]; rfl⟩
  · exact ⟨i, _, hi, by simp only [step, hget]; rfl⟩
  · have hall : ∀ b ∈ s.threads, in1 b = 0 := by
      intro b hb
      have h1 := hmin b hb
      have h2 := (hwin b hb _ ht).1
      rcases b with ⟨rb, lb⟩
      cases lb <;> simp [in1, progress, Loc.idx] at h1 h2 ⊢ <;> omega
    have hsum := (sum_map_eq_zero in1 s.threads).mpr hall
    have hc : s.cntr1 = 0 := by omega
    exact ⟨i, _, hi, by simp only [step, hget, hc, ne_eq, not_true_eq_false, if_false]; rfl⟩

end BarrierActiveAutoReset
end embree

namespace embree
namespace BarrierActiveAutoReset

/-- Witness for C3: two threads, the first has returned from its first call
while the second is still at the last spin test of its first call. -/
theorem wait_rendezvous_witness :
    2 < 2 ^ 64 ∧
    Reach (step 2) (init 2) ⟨0, 0, [⟨1, Loc.add0⟩, ⟨0, Loc.zero1⟩]⟩ ∧
    ((⟨0, 0, [⟨1, Loc.add0⟩, ⟨0, Loc.zero1⟩]⟩ : State).threads.length = 2 ∧
      ∀ a ∈ (⟨0, 0, [⟨1, Loc.add0⟩, ⟨0, Loc.zero1⟩]⟩ : State).threads, returned a 1 →
        ∀ b ∈ (⟨0, 0, [⟨1, Loc.add0⟩, ⟨0, Loc.zero1⟩]⟩ : State).threads, entered b 1) :=
  ⟨by decide,
    reach_of_run (step 2) [0, 1, 0, 1, 0, 1, 0, 1, 0, 1, 0, 1, 0, 1, 0] _ _ (by decide),
    wait_rendezvous 2 (by decide) _
      (reach_of_run (step 2) [0, 1, 0, 1, 0, 1, 0, 1, 0, 1, 0, 1, 0, 1, 0] _ _ (by decide)) 1⟩

/-- Witness for C4: two threads after both single calls have returned. -/
theorem wait_resets_itself_witness :
    2 < 2 ^ 64 ∧
    Reach (stepOnce 2) (init 2) ⟨0, 0, [⟨1, Loc.add0⟩, ⟨1, Loc.add0⟩]⟩ ∧
    ((⟨0, 0, [⟨1, Loc.add0⟩, ⟨1, Loc.add0⟩]⟩ : State).threads.length = 2 ∧
      (⟨0, 0, [⟨1, Loc.add0⟩, ⟨1, Loc.add0⟩]⟩ : State).cntr0 ≤ 2 ∧
      (⟨0, 0, [⟨1, Loc.add0⟩, ⟨1, Loc.add0⟩]⟩ : State).cntr1 ≤ 2 ∧
      ((∀ t ∈ (⟨0, 0, [⟨1, Loc.add0⟩, ⟨1, Loc.add0⟩]⟩ : State).threads, returned t 1) →
        (⟨0, 0, [⟨1, Loc.add0⟩, ⟨1, Loc.add0⟩]⟩ : State).cntr0 = 0 ∧
        (⟨0, 0, [⟨1, Loc.add0⟩, ⟨1, Loc.add0⟩]⟩ : State).cntr1 = 0)) :=
  ⟨by decide,
    reach_of_run (stepOnce 2) [0, 1, 0, 1, 0, 1, 0, 1, 0, 1, 0, 1, 0, 1, 0, 1] _ _ (by decide),
    wait_resets_itself 2 (by decide) _
      (reach_of_run (stepOnce 2) [0, 1, 0, 1, 0, 1, 0, 1, 0, 1, 0, 1, 0, 1, 0, 1] _ _
        (by decide))⟩

/-- Witness for C5: two threads, one spinning at line 75 while the other has
not arrived yet; the late thread can advance. -/
theorem wait_never_stuck_witness :
    1 ≤ 2 ∧ 2 < 2 ^ 64 ∧
    Reach (step 2) (init 2) ⟨1, 0, [⟨0, Loc.full0⟩, ⟨0, Loc.add0⟩]⟩ ∧
    step 2 ⟨1, 0, [⟨0, Loc.full0⟩, ⟨0, Loc.add0⟩]⟩ 0 = none ∧
    ∃ i s1, i < 2 ∧ step 2 ⟨1, 0, [⟨0, Loc.full0⟩, ⟨0, Loc.add0⟩]⟩ i = some s1 :=
  ⟨by decide, by decide,
    reach_of_run (step 2) [0] _ _ (by decide), by decide,
    wait_never_stuck 2 (by decide) (by decide) _ (reach_of_run (step 2) [0] _ _ (by decide))⟩

end BarrierActiveAutoReset
end embree

namespace embree
namespace BarrierActive

theorem arrived_le_one (t : Thread) : arrived t ≤ 1 := by
  unfold arrived
  split <;> omega

theorem spinning_le_one (t : Thread) : spinning t ≤ 1 := by
  unfold spinning
  split <;> omega

theorem stepOnce_is_step (n : Nat) (s s1 : State) (i : Nat) (h : stepOnce n s i = some s1) :
    step n s i = some s1 ∧ ∃ t, s.threads[i]? = some t ∧ t.round = 0 := by
  unfold stepOnce at h
  cases hget : s.threads[i]? with
  | none => simp [hget] at h
  | some t =>
    simp only [hget] at h
    split at h
    · rename_i h0
      exact ⟨h, t, rfl, h0⟩
    · cases h

/-- Invariant of a single use by `T` threads: the counter is the number of
arrived threads, and a thread has returned only if `n` threads have arrived. -/
theorem once_inv (n T : Nat) (hT : T < 2 ^ 64) (s : State)
    (hs : Reach (stepOnce n) (init T) s) :
    s.threads.length = T ∧ s.cntr = numArrived s ∧
      (∀ t ∈ s.threads, 1 ≤ t.round → n ≤ numArrived s) ∧
      (∀ t ∈ s.threads, t.round = 0 ∨ t = ⟨1, Loc.incr⟩) := by
  induction hs with
  | start =>
    have h : ∀ t ∈ (init T).threads, t = ⟨0, Loc.incr⟩ := by
      intro t ht
      simp only [init, List.mem_replicate] at ht
      exact ht.2
    refine ⟨by simp [init], ?_, ?_, ?_⟩
    · have h0 : numArrived (init T) = 0 := by
        unfold numArrived
        rw [sum_map_eq_zero]
        intro t ht
        rw [h t ht]
        rfl
      rw [h0]
      rfl
    · intro t ht hr
      rw [h t ht] at hr
      simp at hr
    · intro t ht
      rw [h t ht]
      exact Or.inl rfl
  | step s s1 i _ hstep ih =>
    obtain ⟨hlen, hc, hret, hshape⟩ := ih
    obtain ⟨hst, t, hget, hr0⟩ := stepOnce_is_step n s s1 i hstep
    have ht : t ∈ s.threads := List.mem_iff_getElem?.mpr ⟨i, hget⟩
    unfold step at hst
    simp only [hget] at hst
    rcases t with ⟨r, l⟩
    simp only at hr0
    subst hr0
    cases l <;> simp only at hst
    · -- line 56
      cases hst
      have hsum := sum_map_set arrived s.threads i _ ⟨0, Loc.spin⟩ hget
      have hroom := sum_map_succ_le_length arrived arrived_le_one s.threads i _ hget rfl
      have hf := fetch_add_one s.cntr (by unfold numArrived at hc; omega)
      have hnew : numArrived ⟨fetch_add s.cntr 1, s.threads.set i ⟨0, Loc.spin⟩⟩ =
          numArrived s + 1 := by
        have e0 : arrived ⟨0, Loc.incr⟩ = 0 := by decide
        have e1 : arrived ⟨0, Loc.spin⟩ = 1 := by decide
        rw [e0, e1] at hsum
        show ((s.threads.set i ⟨0, Loc.spin⟩).map arrived).sum = (s.threads.map arrived).sum + 1
        omega
      refine ⟨by simp [hlen], ?_, ?_, ?_⟩
      · rw [hnew]
        show fetch_add s.cntr 1 = numArrived s + 1
        omega
      · intro b hb hbr
        have hb : b ∈ s.threads.set i ⟨0, Loc.spin⟩ := hb
        rw [hnew]
        rcases List.mem_or_eq_of_mem_set hb with hb | hb
        · have := hret b hb hbr
          omega
        · rw [hb] at hbr
          simp at hbr
      · intro b hb
        have hb : b ∈ s.threads.set i ⟨0, Loc.spin⟩ := hb
        rcases List.mem_or_eq_of_mem_set hb with hb | hb
        · exact hshape b hb
        · rw [hb]
          exact Or.inl rfl
    · -- line 57
      split at hst
      · cases hst
      · rename_i hcn
        cases hst
        have hsum := sum_map_set arrived s.threads i _ ⟨0 + 1, Loc.incr⟩ hget
        have hnew : numArrived ⟨s.cntr, s.threads.set i ⟨0 + 1, Loc.incr⟩⟩ = numArrived s := by
          have e0 : arrived ⟨0, Loc.spin⟩ = 1 := by decide
          have e1 : arrived ⟨0 + 1, Loc.incr⟩ = 1 := by decide
          rw [e0, e1] at hsum
          show ((s.threads.set i ⟨0 + 1, Loc.incr⟩).map arrived).sum = (s.threads.map arrived).sum
          omega
        refine ⟨by simp [hlen], ?_, ?_, ?_⟩
        · rw [hnew]
          exact hc
        · intro b hb hbr
          rw [hnew]
          omega
        · intro b hb
          have hb : b ∈ s.threads.set i ⟨0 + 1, Loc.incr⟩ := hb
          rcases List.mem_or_eq_of_mem_set hb with hb | hb
          · exact hshape b hb
          · rw [hb]
            exact Or.inr rfl

/-- C6: in every state reachable when `T` threads (`T < 2^64`) call `wait(n)`
once each on a barrier whose counter is 0, the counter is the number of
threads that have performed their increment; a thread has returned only if
`n` threads have performed their increment; and with exactly `n` participants,
once all `n` have arrived, every thread that has not returned yet passes its
spin test and returns. -/
theorem wait_releases_nobody_early (n T : Nat) (hT : T < 2 ^ 64) (s : State)
    (hs : Reach (stepOnce n) (init T) s) :
    s.threads.length = T ∧ s.cntr = numArrived s ∧
      (∀ t ∈ s.threads, 1 ≤ t.round → n ≤ numArrived s) ∧
      (T = n → numArrived s = n → ∀ (i : Nat) (t : Thread), s.threads[i]? = some t →
        t.round = 0 → stepOnce n s i = some ⟨s.cntr, s.threads.set i ⟨1, Loc.incr⟩⟩) := by
  obtain ⟨hlen, hc, hret, _⟩ := once_inv n T hT s hs
  refine ⟨hlen, hc, hret, ?_⟩
  intro hTn hall i t hget hr
  have ht : t ∈ s.threads := List.mem_iff_getElem?.mpr ⟨i, hget⟩
  have hone := (sum_map_eq_length arrived arrived_le_one s.threads).mp
    (by unfold numArrived at hall; omega) t ht
  rcases t with ⟨r, l⟩
  simp only at hr
  subst hr
  cases l
  · exact absurd hone (by decide)
  · have hcn : s.cntr = n := by omega
    simp only [stepOnce, step, hget, hcn, ne_eq, not_true_eq_false, if_false, if_true]

/-- Without a reset nothing returns: started with the counter at `n` and all
threads outside `wait`, every reachable state has the counter at `n` plus the
number of threads inside `wait`, and every thread has the round it started
with. -/
theorem stale_inv (n : Nat) (s0 s : State) (hc0 : s0.cntr = n)
    (hidle : ∀ t ∈ s0.threads, t.loc = Loc.incr)
    (hroom : n + s0.threads.length < 2 ^ 64) (hs : Reach (step n) s0 s) :
    s.threads.length = s0.threads.length ∧ s.cntr = n + numSpinning s ∧
      ∀ (j : Nat) (t t0 : Thread), s.threads[j]? = some t → s0.threads[j]? = some t0 →
        t.round = t0.round := by
  induction hs with
  | start =>
    refine ⟨rfl, ?_, ?_⟩
    · have h0 : numSpinning s0 = 0 := by
        unfold numSpinning
        rw [sum_map_eq_zero]
        intro t ht
        simp [spinning, hidle t ht]
      omega
    · intro j t t0 h1 h2
      rw [h1] at h2
      cases h2
      rfl
  | step s s1 i _ hstep ih =>
    obtain ⟨hlen, hc, hround⟩ := ih
    unfold step at hstep
    cases hget : s.threads[i]? with
    | none => simp [hget] at hstep
    | some t =>
      simp only [hget] at hstep
      rcases t with ⟨r, l⟩
      cases l <;> simp only at hstep
      · cases hstep
        have hsum := sum_map_set spinning s.threads i _ ⟨r, Loc.spin⟩ hget
        have hle := sum_map_succ_le_length spinning spinning_le_one s.threads i _ hget rfl
        have e0 : spinning ⟨r, Loc.incr⟩ = 0 := rfl
        have e1 : spinning ⟨r, Loc.spin⟩ = 1 := rfl
        rw [e0, e1] at hsum
        unfold numSpinning at hc
        have hf := fetch_add_one s.cntr (by omega)
        refine ⟨by simp [hlen], ?_, ?_⟩
        · show fetch_add s.cntr 1 = n + ((s.threads.set i ⟨r, Loc.spin⟩).map spinning).sum
          omega
        · intro j t t0 h1 h2
          have h1 : (s.threads.set i ⟨r, Loc.spin⟩)[j]? = some t := h1
          by_cases hij : i = j
          · subst hij
            rw [List.getElem?_set] at h1
            simp only [if_true] at h1
            split at h1
            · cases h1
              exact hround i ⟨r, Loc.incr⟩ t0 hget h2
            · cases h1
          · rw [List.getElem?_set_ne hij] at h1
            exact hround j t t0 h1 h2
      · split at hstep
        · cases hstep
        · rename_i hcn
          have hpos := sum_map_pos spinning s.threads i _ hget rfl
          unfold numSpinning at hc
          omega

theorem step_incr_at (n c : Nat) (pre rest : List Thread) (r : Nat) (hc : c + 1 < 2 ^ 64) :
    step n ⟨c, pre ++ ⟨r, Loc.incr⟩ :: rest⟩ pre.length =
      some ⟨c + 1, (pre ++ [⟨r, Loc.spin⟩]) ++ rest⟩ := by
  have hget : (pre ++ (⟨r, Loc.incr⟩ : Thread) :: rest)[pre.length]? = some ⟨r, Loc.incr⟩ := by
    rw [List.getElem?_append_right (le_refl _)]
    simp
  have hset : (pre ++ (⟨r, Loc.incr⟩ : Thread) :: rest).set pre.length ⟨r, Loc.spin⟩ =
      (pre ++ [⟨r, Loc.spin⟩]) ++ rest := by
    rw [List.set_append_right _ _ (le_refl _)]
    simp
  simp only [step, hget, hset, fetch_add_one c hc]

theorem step_spin_at (n : Nat) (pre rest : List Thread) (r : Nat) :
    step n ⟨n, pre ++ ⟨r, Loc.spin⟩ :: rest⟩ pre.length =
      some ⟨n, (pre ++ [⟨r + 1, Loc.incr⟩]) ++ rest⟩ := by
  have hget : (pre ++ (⟨r, Loc.spin⟩ : Thread) :: rest)[pre.length]? = some ⟨r, Loc.spin⟩ := by
    rw [List.getElem?_append_right (le_refl _)]
    simp
  have hset : (pre ++ (⟨r, Loc.spin⟩ : Thread) :: rest).set pre.length ⟨r + 1, Loc.incr⟩ =
      (pre ++ [⟨r + 1, Loc.incr⟩]) ++ rest := by
    rw [List.set_append_right _ _ (le_refl _)]
    simp
  simp only [step, hget, hset, ne_eq, not_true_eq_false, if_false]

/-- The threads `todo`, all outside `wait`, perform their increments one after
the other. -/
theorem run_incr (n : Nat) (todo pre : List Thread) (c : Nat)
    (hidle : ∀ t ∈ todo, t.loc = Loc.incr) (hc : c + todo.length < 2 ^ 64) :
    run (step n) ⟨c, pre ++ todo⟩ (List.range' pre.length todo.length) =
      some ⟨c + todo.length, pre ++ todo.map (fun t => ⟨t.round, Loc.spin⟩)⟩ := by
  induction todo generalizing pre c with
  | nil => simp [run]
  | cons t rest ih =>
    rcases t with ⟨r, l⟩
    have hl : l = Loc.incr := hidle ⟨r, l⟩ (by simp)
    subst hl
    simp only [List.length_cons] at hc ⊢
    rw [List.range'_succ]
    simp only [run, step_incr_at n c pre rest r (by omega)]
    have h := ih (pre ++ [⟨r, Loc.spin⟩]) (c + 1) (fun t ht => hidle t (by simp [ht])) (by omega)
    simp only [List.length_append, List.length_singleton] at h
    rw [h]
    simp [Nat.add_assoc, Nat.add_comm 1]

/-- With the counter at `n`, the spinning threads `todo` leave `wait` one after
the other. -/
theorem run_spin (n : Nat) (todo pre : List Thread)
    (hspin : ∀ t ∈ todo, t.loc = Loc.spin) :
    run (step n) ⟨n, pre ++ todo⟩ (List.range' pre.length todo.length) =
      some ⟨n, pre ++ todo.map (fun t => ⟨t.round + 1, Loc.incr⟩)⟩ := by
  induction todo generalizing pre with
  | nil => simp [run]
  | cons t rest ih =>
    rcases t with ⟨r, l⟩
    have hl : l = Loc.spin := hspin ⟨r, l⟩ (by simp)
    subst hl
    simp only [List.length_cons]
    rw [List.range'_succ]
    simp only [run, step_spin_at n pre rest r]
    have h := ih (pre ++ [⟨r + 1, Loc.incr⟩]) (fun t ht => hspin t (by simp [ht]))
    simp only [List.length_append, List.length_singleton] at h
    rw [h]
    simp

/-- After `reset()` a round of `n` waiters completes: all increment, then all
pass the spin test. -/
theorem round_completes (n : Nat) (hn : n < 2 ^ 64) (s : State) (hlen : s.threads.length = n)
    (hidle : ∀ t ∈ s.threads, t.loc = Loc.incr) :
    run (step n) (reset s) (List.range n ++ List.range n) =
      some ⟨n, s.threads.map Thread.done⟩ := by
  have h1 := run_incr n s.threads [] 0 hidle (by omega)
  simp only [List.length_nil, List.nil_append, hlen, Nat.zero_add, ← List.range_eq_range'] at h1
  have h1r : run (step n) (reset s) (List.range n) =
      some ⟨n, s.threads.map (fun t => ⟨t.round, Loc.spin⟩)⟩ := h1
  rw [run_append (step n) _ _ _ _ h1r]
  have h2 := run_spin n (s.threads.map (fun t => ⟨t.round, Loc.spin⟩)) []
    (by
      intro t ht
      simp only [List.mem_map] at ht
      obtain ⟨a, _, ha⟩ := ht
      rw [← ha])
  simp only [List.length_nil, List.nil_append, List.length_map, hlen,
    ← List.range_eq_range', List.map_map] at h2
  rw [h2]
  rfl

theorem sum_map_le_mul {α : Type} (f : α → Nat) (k : Nat) (hf : ∀ t, f t ≤ k) (l : List α) :
    (l.map f).sum ≤ k * l.length := by
  induction l with
  | nil => simp
  | cons a rest ih =>
    have := hf a
    simp only [List.map_cons, List.sum_cons, List.length_cons, Nat.mul_add, Nat.mul_one]
    omega

theorem exists_lt_of_sum_lt {α : Type} (f : α → Nat) (k : Nat) (l : List α)
    (h : (l.map f).sum < k * l.length) : ∃ p ∈ l, f p < k := by
  induction l with
  | nil => simp at h
  | cons a rest ih =>
    simp only [List.map_cons, List.sum_cons, List.length_cons, Nat.mul_add, Nat.mul_one] at h
    by_cases ha : f a < k
    · exact ⟨a, by simp, ha⟩
    · obtain ⟨p, hp, hlt⟩ := ih (by omega)
      exact ⟨p, by simp [hp], hlt⟩

theorem forall_eq_of_sum_eq_mul {α : Type} (f : α → Nat) (k : Nat) (hf : ∀ t, f t ≤ k)
    (l : List α) (h : (l.map f).sum = k * l.length) : ∀ p ∈ l, f p = k := by
  induction l with
  | nil => simp
  | cons a rest ih =>
    have h1 := hf a
    have h2 := sum_map_le_mul f k hf rest
    simp only [List.map_cons, List.sum_cons, List.length_cons, Nat.mul_add, Nat.mul_one] at h
    intro p hp
    rcases List.mem_cons.mp hp with hp | hp
    · subst hp
      omega
    · exact ih (by omega) p hp

theorem zip_set_right {α β : Type} (l0 : List α) (l : List β) (i : Nat) (a : α) (x : β)
    (h : l0[i]? = some a) : l0.zip (l.set i x) = (l0.zip l).set i (a, x) := by
  induction l0 generalizing l i with
  | nil => simp at h
  | cons a0 rest0 ih =>
    cases l with
    | nil => simp
    | cons b rest =>
      cases i with
      | zero =>
        simp only [List.getElem?_cons_zero, Option.some.injEq] at h
        subst h
        simp
      | succ i =>
        simp only [List.getElem?_cons_succ] at h
        simp only [List.set_cons_succ, List.zip_cons_cons, ih rest i h]

theorem mem_zip_self {α : Type} (l : List α) : ∀ p ∈ l.zip l, p.2 = p.1 := by
  induction l with
  | nil => simp
  | cons a rest ih =>
    intro p hp
    simp only [List.zip_cons_cons, List.mem_cons] at hp
    rcases hp with hp | hp
    · rw [hp]
    · exact ih p hp

theorem eq_map_of_zip {α β : Type} (g : α → β) (l0 : List α) (l : List β)
    (hlen : l.length = l0.length) (h : ∀ p ∈ l0.zip l, p.2 = g p.1) : l = l0.map g := by
  induction l0 generalizing l with
  | nil =>
    cases l with
    | nil => rfl
    | cons b rest => simp at hlen
  | cons a0 rest0 ih =>
    cases l with
    | nil => simp at hlen
    | cons b rest =>
      simp only [List.length_cons, Nat.add_right_cancel_iff] at hlen
      have hb : b = g a0 := h (a0, b) (by simp)
      have hrest := ih rest hlen (fun p hp => h p (by simp [hp]))
      rw [hb, hrest]
      rfl

theorem roundPhase_le (p : Thread × Thread) : roundPhase p ≤ 2 := by
  unfold roundPhase
  split
  · omega
  · split <;> omega

theorem roundArrived_le (p : Thread × Thread) : roundArrived p ≤ 1 := by
  unfold roundArrived
  split <;> omega

/-- The state left by `reset()` starts a round. -/
theorem roundInv_reset (s0 : State) : RoundInv s0 (reset s0) ∧ roundOps s0 (reset s0) = 0 := by
  have hself := mem_zip_self s0.threads
  refine ⟨⟨rfl, ?_, ?_⟩, ?_⟩
  · have h : ((s0.threads.zip (reset s0).threads).map roundArrived).sum = 0 := by
      rw [sum_map_eq_zero]
      intro p hp
      simp [roundArrived, hself p hp]
    rw [h]
    rfl
  · intro p hp
    exact Or.inl (hself p hp)
  · unfold roundOps
    rw [sum_map_eq_zero]
    intro p hp
    simp [roundPhase, hself p hp]

/-- Every operation of a round keeps the invariant and is counted once. -/
theorem roundInv_step (n : Nat) (hn : n < 2 ^ 64) (s0 s s1 : State) (i : Nat)
    (hlen0 : s0.threads.length = n) (hidle : ∀ t ∈ s0.threads, t.loc = Loc.incr)
    (hinv : RoundInv s0 s) (hstep : stepRound n s0 s i = some s1) :
    RoundInv s0 s1 ∧ roundOps s0 s1 = roundOps s0 s + 1 := by
  obtain ⟨hlen, hc, hshape⟩ := hinv
  unfold stepRound at hstep
  cases h0 : s0.threads[i]? with
  | none => simp [h0] at hstep
  | some t0 =>
    cases hget : s.threads[i]? with
    | none => simp [h0, hget] at hstep
    | some t =>
      simp only [h0, hget] at hstep
      split at hstep
      · rename_i hr
        have hp : (s0.threads.zip s.threads)[i]? = some (t0, t) :=
          List.getElem?_zip_eq_some.mpr ⟨h0, hget⟩
        have hmem : (t0, t) ∈ s0.threads.zip s.threads := List.mem_iff_getElem?.mpr ⟨i, hp⟩
        have hl0 : t0.loc = Loc.incr := hidle t0 (List.mem_iff_getElem?.mpr ⟨i, h0⟩)
        have hzlen : (s0.threads.zip s.threads).length = n := by
          simp [List.length_zip, hlen, hlen0]
        rcases t0 with ⟨r0, l0⟩
        simp only at hl0
        subst hl0
        unfold step at hstep
        simp only [hget] at hstep
        rcases hshape _ hmem with hcase | hcase | hcase
        · -- before the increment
          simp only at hcase
          subst hcase
          simp only at hstep
          have hroom := sum_map_succ_le_length roundArrived roundArrived_le _ i _ hp
            (by simp [roundArrived])
          have hf := fetch_add_one s.cntr (by omega)
          cases hstep
          have hz := zip_set_right s0.threads s.threads i _ ⟨r0, Loc.spin⟩ h0
          have hsa := sum_map_set roundArrived _ i _ ((⟨r0, Loc.incr⟩ : Thread), ⟨r0, Loc.spin⟩) hp
          have hsp := sum_map_set roundPhase _ i _ ((⟨r0, Loc.incr⟩ : Thread), ⟨r0, Loc.spin⟩) hp
          have ea0 : roundArrived ((⟨r0, Loc.incr⟩ : Thread), ⟨r0, Loc.incr⟩) = 0 := by
            simp [roundArrived]
          have ea1 : roundArrived ((⟨r0, Loc.incr⟩ : Thread), ⟨r0, Loc.spin⟩) = 1 := by
            simp [roundArrived]
          have ep0 : roundPhase ((⟨r0, Loc.incr⟩ : Thread), ⟨r0, Loc.incr⟩) = 0 := by
            simp [roundPhase]
          have ep1 : roundPhase ((⟨r0, Loc.incr⟩ : Thread), ⟨r0, Loc.spin⟩) = 1 := by
            simp [roundPhase]
          rw [ea0, ea1] at hsa
          rw [ep0, ep1] at hsp
          refine ⟨⟨by simp [hlen], ?_, ?_⟩, ?_⟩
          · show fetch_add s.cntr 1 =
              ((s0.threads.zip (s.threads.set i ⟨r0, Loc.spin⟩)).map roundArrived).sum
            rw [hz]
            omega
          · intro p hpm
            have hpm : p ∈ s0.threads.zip (s.threads.set i ⟨r0, Loc.spin⟩) := hpm
            rw [hz] at hpm
            rcases List.mem_or_eq_of_mem_set hpm with hpm | hpm
            · exact hshape p hpm
            · rw [hpm]
              exact Or.inr (Or.inl rfl)
          · show ((s0.threads.zip (s.threads.set i ⟨r0, Loc.spin⟩)).map roundPhase).sum =
              ((s0.threads.zip s.threads).map roundPhase).sum + 1
            rw [hz]
            omega
        · -- at the spin test
          simp only at hcase
          subst hcase
          simp only at hstep
          split at hstep
          · cases hstep
          · cases hstep
            have hz := zip_set_right s0.threads s.threads i _ ⟨r0 + 1, Loc.incr⟩ h0
            have hsa := sum_map_set roundArrived _ i _
              ((⟨r0, Loc.incr⟩ : Thread), ⟨r0 + 1, Loc.incr⟩) hp
            have hsp := sum_map_set roundPhase _ i _
              ((⟨r0, Loc.incr⟩ : Thread), ⟨r0 + 1, Loc.incr⟩) hp
            have ea0 : roundArrived ((⟨r0, Loc.incr⟩ : Thread), ⟨r0, Loc.spin⟩) = 1 := by
              simp [roundArrived]
            have ea1 : roundArrived ((⟨r0, Loc.incr⟩ : Thread), ⟨r0 + 1, Loc.incr⟩) = 1 := by
              simp [roundArrived]
            have ep0 : roundPhase ((⟨r0, Loc.incr⟩ : Thread), ⟨r0, Loc.spin⟩) = 1 := by
              simp [roundPhase]
            have ep1 : roundPhase ((⟨r0, Loc.incr⟩ : Thread), ⟨r0 + 1, Loc.incr⟩) = 2 := by
              simp [roundPhase]
            rw [ea0, ea1] at hsa
            rw [ep0, ep1] at hsp
            refine ⟨⟨by simp [hlen], ?_, ?_⟩, ?_⟩
            · show s.cntr =
                ((s0.threads.zip (s.threads.set i ⟨r0 + 1, Loc.incr⟩)).map roundArrived).sum
              rw [hz]
              omega
            · intro p hpm
              have hpm : p ∈ s0.threads.zip (s.threads.set i ⟨r0 + 1, Loc.incr⟩) := hpm
              rw [hz] at hpm
              rcases List.mem_or_eq_of_mem_set hpm with hpm | hpm
              · exact hshape p hpm
              · rw [hpm]
                exact Or.inr (Or.inr rfl)
            · show ((s0.threads.zip (s.threads.set i ⟨r0 + 1, Loc.incr⟩)).map roundPhase).sum =
                ((s0.threads.zip s.threads).map roundPhase).sum + 1
              rw [hz]
              omega
        · -- returned already: excluded by the test of `stepRound`
          simp only [Thread.done] at hcase
          rw [hcase] at hr
          simp at hr
      · cases hstep

/-- Along every schedule of a round the invariant holds and the number of
operations performed is the length of the schedule. -/
theorem roundInv_run (n : Nat) (hn : n < 2 ^ 64) (s0 : State) (hlen0 : s0.threads.length = n)
    (hidle : ∀ t ∈ s0.threads, t.loc = Loc.incr) (sched : List Nat) (s s1 : State)
    (hinv : RoundInv s0 s) (hrun : run (stepRound n s0) s sched = some s1) :
    RoundInv s0 s1 ∧ roundOps s0 s1 = roundOps s0 s + sched.length := by
  induction sched generalizing s with
  | nil =>
    simp only [run, Option.some.injEq] at hrun
    subst hrun
    exact ⟨hinv, rfl⟩
  | cons i rest ih =>
    simp only [run] at hrun
    cases hnx : stepRound n s0 s i with
    | none => simp [hnx] at hrun
    | some s2 =>
      simp only [hnx] at hrun
      obtain ⟨hinv2, hops2⟩ := roundInv_step n hn s0 s s2 i hlen0 hidle hinv hnx
      obtain ⟨hinv1, hops1⟩ := ih s2 hinv2 hrun
      refine ⟨hinv1, ?_⟩
      simp only [List.length_cons]
      omega

/-- A round that has not performed all its `2 n` operations is not stuck. -/
theorem round_not_stuck (n : Nat) (s0 s : State) (hlen0 : s0.threads.length = n)
    (hidle : ∀ t ∈ s0.threads, t.loc = Loc.incr) (hinv : RoundInv s0 s)
    (hops : roundOps s0 s < 2 * n) : ∃ i s1, stepRound n s0 s i = some s1 := by
  obtain ⟨hlen, hc, hshape⟩ := hinv
  have hzlen : (s0.threads.zip s.threads).length = n := by
    simp [List.length_zip, hlen, hlen0]
  by_cases hex : ∃ p ∈ s0.threads.zip s.threads, roundPhase p = 0
  · -- some thread has not incremented yet
    obtain ⟨p, hp, hph⟩ := hex
    obtain ⟨i, hi⟩ := List.mem_iff_getElem?.mp hp
    obtain ⟨h0, hget⟩ := List.getElem?_zip_eq_some.mp hi
    have hl0 : p.1.loc = Loc.incr := hidle p.1 (List.mem_iff_getElem?.mpr ⟨i, h0⟩)
    have heq : p.2 = p.1 := by
      unfold roundPhase at hph
      split at hph
      · assumption
      · split at hph <;> omega
    rw [heq] at hget
    refine ⟨i, ⟨fetch_add s.cntr 1, s.threads.set i ⟨p.1.round, Loc.spin⟩⟩, ?_⟩
    simp only [stepRound, h0, hget, if_true, step, hl0]
  · -- all threads have incremented: the counter is `n`
    have hall : ∀ p ∈ s0.threads.zip s.threads, roundArrived p = 1 := by
      intro p hp
      have hne : roundPhase p ≠ 0 := fun h => hex ⟨p, hp, h⟩
      unfold roundPhase at hne
      unfold roundArrived
      split
      · rename_i h
        simp [h] at hne
      · rfl
    have hsum := (sum_map_eq_length roundArrived roundArrived_le _).mpr hall
    have hcn : s.cntr = n := by omega
    obtain ⟨p, hp, hlt⟩ := exists_lt_of_sum_lt roundPhase 2 (s0.threads.zip s.threads)
      (by unfold roundOps at hops; omega)
    obtain ⟨i, hi⟩ := List.mem_iff_getElem?.mp hp
    obtain ⟨h0, hget⟩ := List.getElem?_zip_eq_some.mp hi
    have hne : roundPhase p ≠ 0 := fun h => hex ⟨p, hp, h⟩
    have hspin : p.2.loc = Loc.spin ∧ p.2 ≠ p.1 := by
      unfold roundPhase at hlt hne
      split at hlt
      · rename_i h
        simp [h] at hne
      · rename_i h
        split at hlt
        · rename_i h2
          exact ⟨h2, h⟩
        · omega
    have hl0 : p.1.loc = Loc.incr := hidle p.1 (List.mem_iff_getElem?.mpr ⟨i, h0⟩)
    have hval : p.2 = ⟨p.1.round, Loc.spin⟩ := by
      rcases hshape p hp with h | h | h
      · exact absurd h hspin.2
      · exact h
      · rw [h] at hspin
        simp [Thread.done] at hspin
    rw [hval] at hget
    refine ⟨i, ⟨s.cntr, s.threads.set i ⟨p.1.round + 1, Loc.incr⟩⟩, ?_⟩
    simp only [stepRound, h0, hget, if_true, step, hcn, ne_eq, not_true_eq_false, if_false]

/-- A round that has performed all its `2 n` operations has all `n` waiters
returned and the counter at `n`. -/
theorem round_complete (n : Nat) (s0 s : State) (hlen0 : s0.threads.length = n)
    (hinv : RoundInv s0 s) (hops : roundOps s0 s = 2 * n) :
    s = ⟨n, s0.threads.map Thread.done⟩ := by
  obtain ⟨hlen, hc, hshape⟩ := hinv
  have hzlen : (s0.threads.zip s.threads).length = n := by
    simp [List.length_zip, hlen, hlen0]
  have hall := forall_eq_of_sum_eq_mul roundPhase 2 roundPhase_le (s0.threads.zip s.threads)
    (by unfold roundOps at hops; omega)
  have hdone : ∀ p ∈ s0.threads.zip s.threads, p.2 = Thread.done p.1 := by
    intro p hp
    have h2 := hall p hp
    unfold roundPhase at h2
    split at h2
    · omega
    · rename_i hne
      split at h2
      · omega
      · rename_i hns
        rcases hshape p hp with h | h | h
        · exact absurd h hne
        · rw [h] at hns
          simp at hns
        · exact h
  have hthreads := eq_map_of_zip Thread.done s0.threads s.threads hlen hdone
  have harr : ∀ p ∈ s0.threads.zip s.threads, roundArrived p = 1 := by
    intro p hp
    have h2 := hall p hp
    unfold roundPhase at h2
    unfold roundArrived
    split
    · rename_i h
      simp [h] at h2
    · rfl
  have hsum := (sum_map_eq_length roundArrived roundArrived_le _).mpr harr
  have hcn : s.cntr = n := by omega
  rcases s with ⟨c, ths⟩
  simp only at hcn hthreads
  rw [hcn, hthreads]

/-- C7: for `n < 2^64`, (1) on a barrier whose counter is `n`, the value left
by a completed round of `n` waiters, with no `reset()` and with all threads
outside `wait` (few enough that the counter cannot wrap around), in every
reachable state no thread has returned from a further call, the counter is
`n` plus the number of threads inside `wait`, and every thread inside `wait`
sees a counter greater than `n` and fails its exit test; (2) `reset()` sets the
counter to 0 whatever it was and changes nothing else; (3) after `reset()` a
new round of `n` waiters completes on every interleaving: whatever the order
in which the `n` threads perform the operations of one call of `wait(n)` each,
the round never performs more than `2 n` operations, it is never stuck before
it has performed `2 n` operations, and once it has, all `n` waiters have
returned and the counter is `n`; (4) in particular the schedule in which all
threads increment and then all pass the exit test completes the round. -/
theorem wait_needs_reset (n : Nat) (hn : n < 2 ^ 64) :
    (∀ s0 s : State, s0.cntr = n → (∀ t ∈ s0.threads, t.loc = Loc.incr) →
      n + s0.threads.length < 2 ^ 64 → Reach (step n) s0 s →
        s.threads.length = s0.threads.length ∧
        s.cntr = n + numSpinning s ∧
        (∀ (j : Nat) (t t0 : Thread), s.threads[j]? = some t → s0.threads[j]? = some t0 →
          t.round = t0.round) ∧
        (∀ (j : Nat) (t : Thread), s.threads[j]? = some t → t.loc = Loc.spin →
          n < s.cntr ∧ step n s j = none)) ∧
    (∀ s : State, (reset s).cntr = 0 ∧ (reset s).threads = s.threads) ∧
    (∀ s0 : State, s0.threads.length = n → (∀ t ∈ s0.threads, t.loc = Loc.incr) →
      ∀ (sched : List Nat) (s : State), run (stepRound n s0) (reset s0) sched = some s →
        sched.length ≤ 2 * n ∧
        (sched.length < 2 * n → ∃ i s1, stepRound n s0 s i = some s1) ∧
        (sched.length = 2 * n → s = ⟨n, s0.threads.map Thread.done⟩)) ∧
    (∀ s : State, s.threads.length = n → (∀ t ∈ s.threads, t.loc = Loc.incr) →
      run (step n) (reset s) (List.range n ++ List.range n) =
        some ⟨n, s.threads.map Thread.done⟩) := by
  refine ⟨?_, fun s => ⟨rfl, rfl⟩, ?_,
    fun s hlen hidle => round_completes n hn s hlen hidle⟩
  · intro s0 s hc0 hidle hroom hs
    obtain ⟨hlen, hc, hround⟩ := stale_inv n s0 s hc0 hidle hroom hs
    refine ⟨hlen, hc, hround, ?_⟩
    intro j t hget hl
    rcases t with ⟨r, l⟩
    simp only at hl
    subst hl
    have hpos := sum_map_pos spinning s.threads j _ hget rfl
    unfold numSpinning at hc
    have hne : s.cntr ≠ n := by omega
    refine ⟨by omega, ?_⟩
    simp only [step, hget, hne, ne_eq, not_false_eq_true, if_true]
  · intro s0 hlen0 hidle sched s hrun
    obtain ⟨hinv0, hops0⟩ := roundInv_reset s0
    obtain ⟨hinv, hops⟩ := roundInv_run n hn s0 hlen0 hidle sched (reset s0) s hinv0 hrun
    have hzlen : (s0.threads.zip s.threads).length = n := by
      simp [List.length_zip, hinv.1, hlen0]
    have hle := sum_map_le_mul roundPhase 2 roundPhase_le (s0.threads.zip s.threads)
    have hle2 : roundOps s0 s ≤ 2 * n := by
      unfold roundOps
      omega
    refine ⟨by omega, ?_, ?_⟩
    · intro hlt
      exact round_not_stuck n s0 s hlen0 hidle hinv (by omega)
    · intro heq
      exact round_complete n s0 s hlen0 hinv (by omega)

end BarrierActive
end embree

namespace embree
namespace BarrierActive

/-- Witness for C6: two participants of `wait(2)`, the first has returned, the
second is still at its spin test and is able to return. -/
theorem wait_releases_nobody_early_witness :
    2 < 2 ^ 64 ∧
    Reach (stepOnce 2) (init 2) ⟨2, [⟨1, Loc.incr⟩, ⟨0, Loc.spin⟩]⟩ ∧
    ((⟨2, [⟨1, Loc.incr⟩, ⟨0, Loc.spin⟩]⟩ : State).threads.length = 2 ∧
      (⟨2, [⟨1, Loc.incr⟩, ⟨0, Loc.spin⟩]⟩ : State).cntr =
        numArrived ⟨2, [⟨1, Loc.incr⟩, ⟨0, Loc.spin⟩]⟩ ∧
      (∀ t ∈ (⟨2, [⟨1, Loc.incr⟩, ⟨0, Loc.spin⟩]⟩ : State).threads, 1 ≤ t.round →
        2 ≤ numArrived ⟨2, [⟨1, Loc.incr⟩, ⟨0, Loc.spin⟩]⟩) ∧
      (2 = 2 → numArrived ⟨2, [⟨1, Loc.incr⟩, ⟨0, Loc.spin⟩]⟩ = 2 →
        ∀ (i : Nat) (t : Thread),
          (⟨2, [⟨1, Loc.incr⟩, ⟨0, Loc.spin⟩]⟩ : State).threads[i]? = some t →
          t.round = 0 →
          stepOnce 2 ⟨2, [⟨1, Loc.incr⟩, ⟨0, Loc.spin⟩]⟩ i =
            some ⟨(⟨2, [⟨1, Loc.incr⟩, ⟨0, Loc.spin⟩]⟩ : State).cntr,
              (⟨2, [⟨1, Loc.incr⟩, ⟨0, Loc.spin⟩]⟩ : State).threads.set i ⟨1, Loc.incr⟩⟩)) :=
  ⟨by decide,
    reach_of_run (stepOnce 2) [0, 1, 0] _ _ (by decide),
    wait_releases_nobody_early 2 2 (by decide) _
      (reach_of_run (stepOnce 2) [0, 1, 0] _ _ (by decide))⟩

/-- Witness for C7 at `n = 2`: a stale counter blocks a further call, and
after `reset()` of a counter left at 7 two interleavings of a new round, by
threads that have returned from one and from three earlier calls, both
complete. -/
theorem wait_needs_reset_witness :
    2 < 2 ^ 64 ∧
    step 2 ⟨3, [⟨1, Loc.spin⟩, ⟨1, Loc.incr⟩]⟩ 0 = none ∧
    run (stepRound 2 ⟨7, [⟨1, Loc.incr⟩, ⟨3, Loc.incr⟩]⟩)
        (reset ⟨7, [⟨1, Loc.incr⟩, ⟨3, Loc.incr⟩]⟩) [1, 0, 1, 0] =
      some ⟨2, [⟨2, Loc.incr⟩, ⟨4, Loc.incr⟩]⟩ ∧
    run (stepRound 2 ⟨7, [⟨1, Loc.incr⟩, ⟨3, Loc.incr⟩]⟩)
        (reset ⟨7, [⟨1, Loc.incr⟩, ⟨3, Loc.incr⟩]⟩) [0, 1, 1, 0] =
      some ⟨2, [⟨2, Loc.incr⟩, ⟨4, Loc.incr⟩]⟩ ∧
    ((∀ s0 s : State, s0.cntr = 2 → (∀ t ∈ s0.threads, t.loc = Loc.incr) →
      2 + s0.threads.length < 2 ^ 64 → Reach (step 2) s0 s →
        s.threads.length = s0.threads.length ∧
        s.cntr = 2 + numSpinning s ∧
        (∀ (j : Nat) (t t0 : Thread), s.threads[j]? = some t → s0.threads[j]? = some t0 →
          t.round = t0.round) ∧
        (∀ (j : Nat) (t : Thread), s.threads[j]? = some t → t.loc = Loc.spin →
          2 < s.cntr ∧ step 2 s j = none)) ∧
    (∀ s : State, (reset s).cntr = 0 ∧ (reset s).threads = s.threads) ∧
    (∀ s0 : State, s0.threads.length = 2 → (∀ t ∈ s0.threads, t.loc = Loc.incr) →
      ∀ (sched : List Nat) (s : State), run (stepRound 2 s0) (reset s0) sched = some s →
        sched.length ≤ 2 * 2 ∧
        (sched.length < 2 * 2 → ∃ i s1, stepRound 2 s0 s i = some s1) ∧
        (sched.length = 2 * 2 → s = ⟨2, s0.threads.map Thread.done⟩)) ∧
    (∀ s : State, s.threads.length = 2 → (∀ t ∈ s.threads, t.loc = Loc.incr) →
      run (step 2) (reset s) (List.range 2 ++ List.range 2) =
        some ⟨2, s.threads.map Thread.done⟩)) :=
  ⟨by decide, by decide, by decide, by decide, wait_needs_reset 2 (by decide)⟩

end BarrierActive
end embree

namespace embree
namespace BVH4iBuilder

/-- The slices of the first `k` participants make up an initial piece of the
range. -/
theorem slices_take (range : List Nat) (T k : Nat) :
    (List.range k).flatMap (slice range T) = range.take (k * range.length / T) := by
  induction k with
  | zero => simp
  | succ k ih =>
    rw [List.range_succ, List.flatMap_append, ih]
    simp only [List.flatMap_cons, List.flatMap_nil, List.append_nil]
    unfold slice
    have hmono : k * range.length / T ≤ (k + 1) * range.length / T :=
      Nat.div_le_div_right (Nat.mul_le_mul_right _ (Nat.le_succ k))
    have : (k + 1) * range.length / T =
        k * range.length / T + ((k + 1) * range.length / T - k * range.length / T) := by
      omega
    conv_rhs => rw [this, List.take_add]

/-- The slices of all participants make up the range. -/
theorem slices_all (range : List Nat) (T : Nat) (hT : 1 ≤ T) :
    (List.range T).flatMap (slice range T) = range := by
  rw [slices_take]
  have : T * range.length / T = range.length := Nat.mul_div_cancel_left _ (by omega)
  rw [this, List.take_length]

/-- Every participant claims exactly once on a cursor. -/
theorem claimOrder_perm (T : Nat) (schedule : List Nat) :
    (claimOrder T schedule).Perm (List.range T) := by
  unfold claimOrder
  rw [List.perm_ext_iff_of_nodup]
  · intro a
    simp only [List.mem_append, List.mem_dedup, List.mem_filter, decide_eq_true_eq,
      List.mem_range]
    constructor
    · rintro (⟨_, h⟩ | ⟨h, _⟩) <;> exact h
    · intro h
      by_cases hs : a ∈ schedule
      · exact Or.inl ⟨hs, h⟩
      · exact Or.inr ⟨h, hs⟩
  · rw [List.nodup_append]
    refine ⟨List.nodup_dedup _, (List.nodup_range T).filter _, ?_⟩
    intro a ha hb
    simp only [List.mem_dedup, List.mem_filter, decide_eq_true_eq] at ha hb
    exact hb.2 ha.1
  · exact List.nodup_range T

/-- Partitioning rearranges the range: the two sub-ranges together hold the
primitives of the range. -/
theorem partitionRange_perm (goLeft : Nat → Bool) (range : List Nat) (T : Nat) (hT : 1 ≤ T)
    (scheduleL scheduleR : List Nat) :
    ((partitionRange goLeft range T scheduleL scheduleR).1 ++
      (partitionRange goLeft range T scheduleL scheduleR).2).Perm range := by
  unfold partitionRange
  have hL : ((claimOrder T scheduleL).flatMap (fun t => (slice range T t).filter goLeft)).Perm
      (range.filter goLeft) := by
    have h := (claimOrder_perm T scheduleL).flatMap_right
      (fun t => (slice range T t).filter goLeft)
    have e : (List.range T).flatMap (fun t => (slice range T t).filter goLeft) =
        range.filter goLeft := by
      rw [← List.filter_flatMap, slices_all range T hT]
    rw [e] at h
    exact h
  have hR : ((claimOrder T scheduleR).flatMap
      (fun t => (slice range T t).filter (fun p => !goLeft p))).Perm
      (range.filter (fun p => !goLeft p)) := by
    have h := (claimOrder_perm T scheduleR).flatMap_right
      (fun t => (slice range T t).filter (fun p => !goLeft p))
    have e : (List.range T).flatMap (fun t => (slice range T t).filter (fun p => !goLeft p)) =
        range.filter (fun p => !goLeft p) := by
      rw [← List.filter_flatMap, slices_all range T hT]
    rw [e] at h
    exact h
  exact (hL.append hR).trans (List.filter_append_perm goLeft range)

theorem splitRange_perm (cfg : BuildConfig) (threadCount : Nat) (hc : 1 ≤ cfg.threadsPerCore)
    (ht : 1 ≤ threadCount) (plan : Option SplitPlan) (range : List Nat) :
    ((splitRange cfg threadCount plan range).1 ++
      (splitRange cfg threadCount plan range).2).Perm range := by
  cases plan with
  | none =>
    simp only [splitRange, List.take_append_drop]
    exact List.Perm.refl _
  | some p =>
    simp only [splitRange]
    apply partitionRange_perm
    cases p.mode <;> simp [participants, hc, ht]

theorem tiles_le (ls : List Leaf) (a b : Nat) (h : tiles ls a b) : a ≤ b := by
  induction ls generalizing a with
  | nil =>
    simp only [tiles] at h
    omega
  | cons l rest ih =>
    obtain ⟨h1, h2, h3⟩ := h
    have := ih l.stop h3
    omega

theorem tiles_append (l1 l2 : List Leaf) (a b c : Nat) (h1 : tiles l1 a b)
    (h2 : tiles l2 b c) : tiles (l1 ++ l2) a c := by
  induction l1 generalizing a with
  | nil =>
    simp only [tiles] at h1
    subst h1
    exact h2
  | cons l rest ih =>
    obtain ⟨e1, e2, e3⟩ := h1
    exact ⟨e1, e2, ih l.stop e3⟩

/-- Leaves lying to the right of `a` start at or after `a`. -/
theorem tiles_mem (ls : List Leaf) (a b : Nat) (h : tiles ls a b) :
    ∀ l ∈ ls, a ≤ l.start ∧ l.stop ≤ b := by
  induction ls generalizing a with
  | nil => simp
  | cons l rest ih =>
    obtain ⟨e1, e2, e3⟩ := h
    have hle := tiles_le rest l.stop b e3
    intro x hx
    rcases List.mem_cons.mp hx with hx | hx
    · subst hx
      omega
    · have := ih l.stop e3 x hx
      omega

/-- The final content of a record's range is a rearrangement of its initial
content. -/
theorem recurse_perm (cfg : BuildConfig) (threadCount : Nat) (hc : 1 ≤ cfg.threadsPerCore)
    (ht : 1 ≤ threadCount) (split : Nat → Nat → List Nat → Option SplitPlan)
    (remaining start : Nat) (range : List Nat) :
    (recurse cfg threadCount split remaining start range).2.Perm range := by
  induction remaining generalizing start range with
  | zero => exact List.Perm.refl _
  | succ r ih =>
    unfold recurse
    split
    · exact List.Perm.refl _
    · exact ((ih _ _).append (ih _ _)).trans (splitRange_perm cfg threadCount hc ht _ range)

/-- The leaves below a record cover the record's range from left to right
without gap or overlap. -/
theorem recurse_tiles (cfg : BuildConfig) (threadCount : Nat) (hc : 1 ≤ cfg.threadsPerCore)
    (ht : 1 ≤ threadCount) (split : Nat → Nat → List Nat → Option SplitPlan)
    (remaining start : Nat) (range : List Nat) :
    tiles (recurse cfg threadCount split remaining start range).1 start
      (start + range.length) := by
  induction remaining generalizing start range with
  | zero => exact ⟨rfl, by simp, rfl⟩
  | succ r ih =>
    unfold recurse
    split
    · exact ⟨rfl, by simp, rfl⟩
    · have hlen := (splitRange_perm cfg threadCount hc ht
        (split (cfg.maxDepth - (r + 1)) start range) range).length_eq
      rw [List.length_append] at hlen
      have h1 := ih start (splitRange cfg threadCount
        (split (cfg.maxDepth - (r + 1)) start range) range).1
      have h2 := ih (start + (splitRange cfg threadCount
        (split (cfg.maxDepth - (r + 1)) start range) range).1.length)
        (splitRange cfg threadCount (split (cfg.maxDepth - (r + 1)) start range) range).2
      rw [Nat.add_assoc, hlen] at h2
      exact tiles_append _ _ _ _ _ h1 h2

/-- Read from left to right, the ranges of leaves covering `[a, b)` give the
content of the array between `a` and `b`. -/
theorem tiles_flatMap (arr : List Nat) (ls : List Leaf) (a b : Nat) (h : tiles ls a b) :
    ls.flatMap (leafPrims arr) = (arr.drop a).take (b - a) := by
  induction ls generalizing a with
  | nil =>
    simp only [tiles] at h
    subst h
    simp
  | cons l rest ih =>
    obtain ⟨e1, e2, e3⟩ := h
    have hle := tiles_le rest l.stop b e3
    rw [List.flatMap_cons, ih l.stop e3]
    unfold leafPrims
    have hsplit : b - a = (l.stop - l.start) + (b - l.stop) := by omega
    rw [hsplit, List.take_add, List.drop_drop, ← e1]
    have : l.start + (l.stop - l.start) = l.stop := by omega
    rw [this]

/-- Every position of `[a, b)` lies in the range of exactly one leaf. -/
theorem tiles_unique (ls : List Leaf) (a b : Nat) (h : tiles ls a b) (pos : Nat)
    (ha : a ≤ pos) (hb : pos < b) :
    ∃! k : Nat, ∃ l : Leaf, ls[k]? = some l ∧ l.start ≤ pos ∧ pos < l.stop := by
  induction ls generalizing a with
  | nil =>
    simp only [tiles] at h
    omega
  | cons l rest ih =>
    obtain ⟨e1, e2, e3⟩ := h
    by_cases hp : pos < l.stop
    · refine ⟨0, ⟨l, by simp, by omega, hp⟩, ?_⟩
      rintro k ⟨l1, hk, h1, h2⟩
      cases k with
      | zero => rfl
      | succ k =>
        simp only [List.getElem?_cons_succ] at hk
        have hm := tiles_mem rest l.stop b e3 l1 (List.mem_iff_getElem?.mpr ⟨k, hk⟩)
        omega
    · obtain ⟨k, ⟨l1, hk, h1, h2⟩, huniq⟩ := ih l.stop e3 (by omega)
      refine ⟨k + 1, ⟨l1, by simpa using hk, h1, h2⟩, ?_⟩
      rintro k1 ⟨l2, hk1, h3, h4⟩
      cases k1 with
      | zero =>
        simp only [List.getElem?_cons_zero, Option.some.injEq] at hk1
        subst hk1
        omega
      | succ k1 =>
        simp only [List.getElem?_cons_succ] at hk1
        have := huniq k1 ⟨l2, hk1, h3, h4⟩
        omega

/-- A primitive id belongs to a leaf exactly when it is stored at a position
of the leaf's range. -/
theorem mem_leafPrims (arr : List Nat) (l : Leaf) (p : Nat) :
    p ∈ leafPrims arr l ↔ ∃ pos : Nat, l.start ≤ pos ∧ pos < l.stop ∧ arr[pos]? = some p := by
  unfold leafPrims
  rw [List.mem_iff_getElem?]
  constructor
  · rintro ⟨j, hj⟩
    rw [List.getElem?_take] at hj
    split at hj
    · rw [List.getElem?_drop] at hj
      exact ⟨l.start + j, by omega, by omega, hj⟩
    · cases hj
  · rintro ⟨pos, h1, h2, h3⟩
    refine ⟨pos - l.start, ?_⟩
    rw [List.getElem?_take, if_pos (by omega), List.getElem?_drop]
    have : l.start + (pos - l.start) = pos := by omega
    rw [this]
    exact h3

/-- C8: for every configuration with at least one hardware thread per core,
every `threadCount ≥ 1`, every outcome of the split attempts and every
primitive input, the build ends with a rearrangement of the input in the
primitive array; the leaf ranges follow each other from 0 to the number of
primitives without gap or overlap; the leaves together hold the input
primitives; every array position lies in the range of exactly one leaf; and
when the input ids are distinct, every input id belongs to exactly one
leaf. -/
theorem build_strict_partition (cfg : BuildConfig) (threadCount : Nat)
    (hc : 1 ≤ cfg.threadsPerCore) (ht : 1 ≤ threadCount)
    (split : Nat → Nat → List Nat → Option SplitPlan) (prims : List Nat) :
    (build cfg threadCount split prims).2.Perm prims ∧
    tiles (build cfg threadCount split prims).1 0 prims.length ∧
    ((build cfg threadCount split prims).1.flatMap
      (leafPrims (build cfg threadCount split prims).2)).Perm prims ∧
    (∀ pos : Nat, pos < prims.length →
      ∃! k : Nat, ∃ l : Leaf, (build cfg threadCount split prims).1[k]? = some l ∧
        l.start ≤ pos ∧ pos < l.stop) ∧
    (prims.Nodup → ∀ p ∈ prims,
      ∃! k : Nat, ∃ l : Leaf, (build cfg threadCount split prims).1[k]? = some l ∧
        p ∈ leafPrims (build cfg threadCount split prims).2 l) := by
  have hperm : (build cfg threadCount split prims).2.Perm prims :=
    recurse_perm cfg threadCount hc ht split cfg.maxDepth 0 prims
  have htiles : tiles (build cfg threadCount split prims).1 0 prims.length := by
    have h := recurse_tiles cfg threadCount hc ht split cfg.maxDepth 0 prims
    rw [Nat.zero_add] at h
    exact h
  have hlen := hperm.length_eq
  refine ⟨hperm, htiles, ?_, ?_, ?_⟩
  · rw [tiles_flatMap _ _ 0 prims.length htiles, List.drop_zero, Nat.sub_zero, ← hlen,
      List.take_length]
    exact hperm
  · intro pos hpos
    exact tiles_unique _ 0 prims.length htiles pos (Nat.zero_le _) hpos
  · intro hnd p hp
    have hnd2 : (build cfg threadCount split prims).2.Nodup := hperm.nodup_iff.mpr hnd
    have hp2 : p ∈ (build cfg threadCount split prims).2 := hperm.mem_iff.mpr hp
    obtain ⟨pos, hpos⟩ := List.mem_iff_getElem?.mp hp2
    obtain ⟨hlt, hval⟩ := List.getElem?_eq_some.mp hpos
    obtain ⟨k, ⟨l, hk, h1, h2⟩, huniq⟩ :=
      tiles_unique _ 0 prims.length htiles pos (Nat.zero_le _) (by omega)
    refine ⟨k, ⟨l, hk, (mem_leafPrims _ l p).mpr ⟨pos, h1, h2, hpos⟩⟩, ?_⟩
    rintro k1 ⟨l1, hk1, hmem⟩
    obtain ⟨pos1, h3, h4, hpos1⟩ := (mem_leafPrims _ l1 p).mp hmem
    obtain ⟨hlt1, hval1⟩ := List.getElem?_eq_some.mp hpos1
    have heq : pos1 = pos := (hnd2.getElem_inj_iff).mp (hval1.trans hval.symm)
    subst heq
    exact huniq k1 ⟨l1, hk1, h3, h4⟩

end BVH4iBuilder
end embree

namespace embree
namespace BVH4iBuilder

/-- Witness for C8: seven primitives built by two threads. -/
theorem build_strict_partition_witness :
    1 ≤ sampleConfig.threadsPerCore ∧ 1 ≤ 2 ∧
    build sampleConfig 2 sampleSplit [0, 1, 2, 3, 4, 5, 6] =
      ([⟨0, 2⟩, ⟨2, 4⟩, ⟨4, 6⟩, ⟨6, 7⟩], [2, 0, 4, 6, 1, 3, 5]) ∧
    ((build sampleConfig 2 sampleSplit [0, 1, 2, 3, 4, 5, 6]).2.Perm [0, 1, 2, 3, 4, 5, 6] ∧
    tiles (build sampleConfig 2 sampleSplit [0, 1, 2, 3, 4, 5, 6]).1 0
      ([0, 1, 2, 3, 4, 5, 6] : List Nat).length ∧
    ((build sampleConfig 2 sampleSplit [0, 1, 2, 3, 4, 5, 6]).1.flatMap
      (leafPrims (build sampleConfig 2 sampleSplit [0, 1, 2, 3, 4, 5, 6]).2)).Perm
        [0, 1, 2, 3, 4, 5, 6] ∧
    (∀ pos : Nat, pos < ([0, 1, 2, 3, 4, 5, 6] : List Nat).length →
      ∃! k : Nat, ∃ l : Leaf,
        (build sampleConfig 2 sampleSplit [0, 1, 2, 3, 4, 5, 6]).1[k]? = some l ∧
        l.start ≤ pos ∧ pos < l.stop) ∧
    (([0, 1, 2, 3, 4, 5, 6] : List Nat).Nodup → ∀ p ∈ ([0, 1, 2, 3, 4, 5, 6] : List Nat),
      ∃! k : Nat, ∃ l : Leaf,
        (build sampleConfig 2 sampleSplit [0, 1, 2, 3, 4, 5, 6]).1[k]? = some l ∧
        p ∈ leafPrims (build sampleConfig 2 sampleSplit [0, 1, 2, 3, 4, 5, 6]).2 l)) :=
  ⟨by decide, by decide, by decide,
    build_strict_partition sampleConfig 2 (by decide) (by decide) sampleSplit
      [0, 1, 2, 3, 4, 5, 6]⟩

end BVH4iBuilder
end embree
